import Mathlib

/-!
# Verification of mdfmt's table formatter (`src/format.rs`)

A shallow embedding of the `mdfmt` Markdown table formatter.  Strings are
modelled as `List Char` (named `Str`).  Rust operations that can panic
(string slicing at a non-character boundary, `unwrap`, out-of-range
indexing, `usize` underflow feeding `repeat`) are modelled in the `Option`
monad, with `none` standing for a panic/abort; all other operations are
total.  The `strict` flag's `eprintln!` diagnostic is modelled as a list of
emitted warning line numbers (the only datum of the message that depends on
the input), kept separate from the returned text.
-/

set_option maxHeartbeats 1000000

abbrev Str := List Char

/-- Convert a Lean string literal to our character-list representation. -/
def str (s : String) : Str := s.data

/-- Whitespace predicate of Rust's `char::is_whitespace` (Unicode `White_Space`). -/
def rustIsWs (c : Char) : Bool :=
  c = ' ' || ('\t' ≤ c && c ≤ '\r') || c = '\u0085' || c = '\u00A0' ||
  c = '\u1680' || ('\u2000' ≤ c && c ≤ '\u200A') || c = '\u2028' ||
  c = '\u2029' || c = '\u202F' || c = '\u205F' || c = '\u3000'

/-- Rust `str::trim_start` (drop leading whitespace characters). -/
def trimStart (s : Str) : Str := s.dropWhile rustIsWs

/-- Rust `str::trim_end` (drop trailing whitespace characters). -/
def trimEnd (s : Str) : Str := (s.reverse.dropWhile rustIsWs).reverse

/-- Rust `str::trim`. -/
def rustTrim (s : Str) : Str := trimEnd (trimStart s)

/-- Display width of one character; model of the `unicode-width` crate
(`UnicodeWidthChar`, with control characters counted as 0 as
`UnicodeWidthStr::width` does): ASCII and most scripts are width 1,
combining marks width 0, East-Asian wide/fullwidth ranges width 2. -/
def charWidth (c : Char) : Nat :=
  let v := c.val.toNat
  if v < 0x20 then 0
  else if v = 0x7F then 0
  else if 0x300 ≤ v && v ≤ 0x36F then 0
  else if (0x1100 ≤ v && v ≤ 0x115F) || (0x2E80 ≤ v && v ≤ 0x303E) ||
          (0x3041 ≤ v && v ≤ 0x33FF) || (0x3400 ≤ v && v ≤ 0x4DBF) ||
          (0x4E00 ≤ v && v ≤ 0x9FFF) || (0xA000 ≤ v && v ≤ 0xA4CF) ||
          (0xAC00 ≤ v && v ≤ 0xD7A3) || (0xF900 ≤ v && v ≤ 0xFAFF) ||
          (0xFE30 ≤ v && v ≤ 0xFE4F) || (0xFF00 ≤ v && v ≤ 0xFF60) ||
          (0xFFE0 ≤ v && v ≤ 0xFFE6) || (0x20000 ≤ v && v ≤ 0x2FFFD) ||
          (0x30000 ≤ v && v ≤ 0x3FFFD) then 2
  else 1

/-- Rust `UnicodeWidthStr::width` on a string: sum of character widths. -/
def strWidth (s : Str) : Nat := (s.map charWidth).sum

/-- UTF-8 encoded length of one character, in bytes. -/
def utf8Len (c : Char) : Nat :=
  if c.val.toNat < 0x80 then 1
  else if c.val.toNat < 0x800 then 2
  else if c.val.toNat < 0x10000 then 3
  else 4

/-- Rust `str::len`: length in UTF-8 bytes. -/
def byteLen (s : Str) : Nat := (s.map utf8Len).sum

/-- Model of the Rust byte slice `&s[..k]`: `none` when `k` is not on a
character boundary or exceeds the length (Rust panics there). -/
def byteTake : Nat → Str → Option Str
  | 0, _ => some []
  | _+1, [] => none
  | k+1, c :: rest =>
    if utf8Len c ≤ k+1 then (byteTake (k+1 - utf8Len c) rest).map (c :: ·)
    else none

/-- Model of `&s[..s.len()-1]` as executed in `process_header`: `usize`
underflow on the empty string and slicing inside a multi-byte character
both panic (`none`). -/
def byteDropLastByte (s : Str) : Option Str :=
  if s = [] then none else byteTake (byteLen s - 1) s

/-- Rust `str::starts_with(c)` for a single char pattern. -/
def startsWithCh (c : Char) (s : Str) : Bool := s.head? = some c

/-- Rust `str::ends_with(c)` for a single char pattern. -/
def endsWithCh (c : Char) (s : Str) : Bool := s.getLast? = some c

/-- Auxiliary for `splitChar` (accumulates the current field reversed). -/
def splitGo (sep : Char) (cur : Str) : Str → List Str
  | [] => [cur.reverse]
  | c :: rest =>
    if c = sep then cur.reverse :: splitGo sep [] rest
    else splitGo sep (c :: cur) rest

/-- Rust `str::split(sep)` for a one-character separator. -/
def splitChar (sep : Char) (s : Str) : List Str := splitGo sep [] s

/-- Rust `str::split_terminator(sep)`: like `split`, but a trailing empty
field (from a final separator) is discarded. -/
def splitTerminator (sep : Char) (s : Str) : List Str :=
  let ps := splitChar sep s
  if ps.getLast? = some [] then ps.dropLast else ps

/-- Does `s` start with three consecutive backticks? -/
def isTriple (s : Str) : Bool :=
  match s with
  | a :: b :: c :: _ => a = '`' && b = '`' && c = '`'
  | _ => false

/-- Auxiliary for `splitOnFence`: scans left to right with a pending run of
0-2 consecutive backticks (`run`) and the current chunk accumulated
reversed in `cur`; completing a third backtick matches the delimiter at its
earliest occurrence, non-overlapping, exactly as Rust `str::split("```")`
finds matches. -/
def fenceGo (cur : Str) (run : Nat) : Str → List Str
  | [] => [cur.reverse ++ List.replicate run '`']
  | c :: rest =>
    if c = '`' then
      if run = 2 then cur.reverse :: fenceGo [] 0 rest
      else fenceGo cur (run + 1) rest
    else fenceGo (c :: (List.replicate run '`' ++ cur)) 0 rest

/-- Rust `content.split("```")`. -/
def splitOnFence (s : Str) : List Str := fenceGo [] 0 s

/-- Strip one trailing `'\r'` (used by `linesOf` after a `'\n'` split). -/
def stripCR (l : Str) : Str :=
  if l.getLast? = some '\r' then l.dropLast else l

/-- Auxiliary for `linesOf` (current line accumulated reversed). -/
def linesGo (cur : Str) : Str → List Str
  | [] => if cur = [] then [] else [cur.reverse]
  | c :: rest =>
    if c = '\n' then stripCR cur.reverse :: linesGo [] rest
    else linesGo (c :: cur) rest

/-- Rust `str::lines()`: split at `'\n'`, strip a `'\r'` directly before a
`'\n'`, no final empty line; a last line without `'\n'` keeps a trailing
`'\r'`. -/
def linesOf (s : Str) : List Str := linesGo [] s

/-- `max` of a list of naturals as Rust's `Iterator::max`: `none` on empty. -/
def listMax? : List Nat → Option Nat
  | [] => none
  | x :: xs => some (xs.foldl Nat.max x)

/-- Join a list of lines, terminating each with `'\n'`. -/
def joinNl (ls : List Str) : Str := (ls.map (· ++ ['\n'])).flatten

/-- Count occurrences of a character (for `output.as_bytes()` newline counts,
and for stating fence-counting properties). -/
def countCh (c : Char) (s : Str) : Nat := s.count c

/-- The literal three-backtick fence delimiter. -/
def fenceStr : Str := ['`', '`', '`']

/-! ## Data model (`format.rs` lines 4-38) -/

/-- `enum TableAlignment`. -/
inductive TableAlignment where
  | None
  | Left
  | Center
  | Right
deriving DecidableEq, Repr

/-- `struct TableColumn`. -/
structure TableColumn where
  alignment : TableAlignment
  lines : List Str
deriving DecidableEq, Repr

/-- `struct Table`. -/
structure Table where
  columns : List TableColumn
deriving DecidableEq, Repr

/-- `enum ParseState`. -/
inductive ParseState where
  | RegularText
  | CheckingHeader (source_header : Str) (headers : List Str)
  | ReadingTable (source_table : List Str) (table : Table)
deriving DecidableEq, Repr

/-- `if let ParseState::RegularText = state` test in `format_chunk`. -/
def ParseState.isRegular : ParseState → Bool
  | .RegularText => true
  | _ => false

/-! ## Renderer (`format.rs` lines 40-81 and 237-241) -/

/-- `pad_cell_content` (format.rs:237): `" " + elem.trim()`, right-padded
with spaces to total display width `width + 2`.  The `usize` subtraction
`width + 2 - padded.width()` panics on underflow, modelled by the guard. -/
def pad_cell_content (elem : Str) (width : Nat) : Option Str :=
  let padded := ' ' :: rustTrim elem
  if strWidth padded ≤ width + 2 then
    some (padded ++ List.replicate (width + 2 - strWidth padded) ' ')
  else none

/-- One output row (`Table::write_output_line`, format.rs:54): `|` then each
padded cell followed by `|`, then a newline.  `column.lines[index]` is an
indexing panic when out of range (`List.get?`). -/
def Table.write_output_line (t : Table) (widths : List Nat) (index : Nat) :
    Option Str := do
  let cells ← (t.columns.zip widths).mapM (fun cw => do
    let elem ← cw.1.lines.get? index
    pad_cell_content elem cw.2)
  some ('|' :: (cells.map (· ++ ['|'])).flatten ++ ['\n'])

/-- Border character before the dashes in a separator cell. -/
def leftBorder : TableAlignment → Char
  | .Left | .Center => ':'
  | _ => '-'

/-- Border character after the dashes in a separator cell. -/
def rightBorder : TableAlignment → Char
  | .Right | .Center => ':'
  | _ => '-'

/-- `Table::write_subhead_line` (format.rs:65): the rendered separator row. -/
def Table.write_subhead_line (t : Table) (widths : List Nat) : Str :=
  '|' :: ((t.columns.zip widths).map (fun cw =>
    leftBorder cw.1.alignment :: List.replicate cw.2 '-' ++
      [rightBorder cw.1.alignment, '|'])).flatten ++ ['\n']

/-- `Table::write_output` (format.rs:41): per-column widths are
`max` over all cells' display widths (`unwrap` panics on an empty column),
floored at 1; `self.columns[0]` panics when there are no columns. -/
def Table.write_output (t : Table) : Option Str := do
  let widths ← t.columns.mapM (fun c =>
    (listMax? (c.lines.map strWidth)).map (Nat.max · 1))
  let c0 ← t.columns.head?
  let nrows := c0.lines.length
  let row0 ← t.write_output_line widths 0
  let body ← (List.range' 1 (nrows - 1)).mapM (t.write_output_line widths)
  some (row0 ++ t.write_subhead_line widths ++ body.flatten)

/-! ## Line classifier and state machine (`format.rs` lines 127-235) -/

/-- The pipe-row candidate test shared by the three `process_*` functions
(format.rs:129, 146, 203): the trimmed line starts and ends with `'|'`. -/
def isPipe (line : Str) : Bool :=
  startsWithCh '|' (rustTrim line) && endsWithCh '|' (rustTrim line)

/-- The field list shared by the three `process_*` functions (format.rs:133,
151, 208): `clean[1..].split_terminator('|')` with each field trimmed.
`clean[1..]` is a byte slice, but it only executes after
`clean.starts_with('|')`, so it always drops exactly the one-byte `'|'` and
is modelled by a one-char drop. -/
def fieldsOf (line : Str) : List Str :=
  (splitTerminator '|' ((rustTrim line).drop 1)).map rustTrim

/-- `process_regular_text` (format.rs:127). -/
def process_regular_text (line : Str) : ParseState :=
  if !isPipe line then .RegularText
  else if (fieldsOf line).isEmpty then .RegularText
  else .CheckingHeader line (fieldsOf line)

/-- The per-cell check of the separator row inside `process_header`
(format.rs:158-186).  Outer `none` = panic; `some none` = the cell is not a
valid separator cell (fall back to regular text); `some (some a)` = valid
with alignment `a`.  `sub.len() < 3` is the UTF-8 byte length.  Note the
source guards *both* strips with `align_left`: the `&dashes[..len-1]` strip
of a trailing `':'` never runs for a right-only cell, and when it does run
(`align_left`) it strips one *byte*, panicking when the trimmed cell ends
in a multi-byte character. -/
def parseSepCell (raw_sub : Str) : Option (Option TableAlignment) :=
  if byteLen (rustTrim raw_sub) < 3 then some none
  else
    match (if startsWithCh ':' (rustTrim raw_sub) then
        byteDropLastByte ((rustTrim raw_sub).drop 1)
      else some (rustTrim raw_sub)) with
    | none => none
    | some dashes =>
      if dashes.all (· = '-') then
        some (some (match startsWithCh ':' (rustTrim raw_sub),
            endsWithCh ':' (rustTrim raw_sub) with
          | false, false => TableAlignment.None
          | true, false => TableAlignment.Left
          | false, true => TableAlignment.Right
          | true, true => TableAlignment.Center))
      else some none

/-- The column-building loop of `process_header` (format.rs:157-191), over
`headers.iter().zip(sub_headers)`: stops at the first invalid cell
(`some none`) or panic (`none`), exactly as the source returns early. -/
def buildColumns : List (Str × Str) → Option (Option (List TableColumn))
  | [] => some (some [])
  | p :: rest =>
    match parseSepCell p.2 with
    | none => none
    | some none => some none
    | some (some al) =>
      match buildColumns rest with
      | none => none
      | some none => some none
      | some (some cols) => some (some (⟨al, [p.1]⟩ :: cols))

/-- `process_header` (format.rs:144): returns the new state together with
the text appended to the chunk output (the buffered raw header plus a
newline on every fallback path). -/
def process_header (line source_header : Str) (headers : List Str) :
    Option (ParseState × Str) :=
  if !isPipe line then
    some (.RegularText, source_header ++ ['\n'])
  else if (fieldsOf line).length ≠ headers.length then
    some (.RegularText, source_header ++ ['\n'])
  else
    match buildColumns (headers.zip (fieldsOf line)) with
    | none => none
    | some none => some (.RegularText, source_header ++ ['\n'])
    | some (some cols) =>
      some (.ReadingTable [source_header, line] ⟨cols⟩, [])

/-- `process_table` (format.rs:201): returns the new state, the text
appended to the chunk output, and the warning line numbers emitted on the
diagnostic channel (`eprintln!`, only under `strict`).  `nlSoFar` is the
number of `'\n'` bytes in the chunk output accumulated so far, which is all
of `output` the source reads (for the warning's line number). -/
def process_table (line : Str) (nlSoFar : Nat) (src : List Str) (t : Table)
    (strict : Bool) : Option (ParseState × Str × List Nat) :=
  if !isPipe line then
    (t.write_output).map (fun r => (.RegularText, r, []))
  else if (fieldsOf line).length ≠ t.columns.length then
    some (.RegularText, joinNl src, if strict then [1 + nlSoFar] else [])
  else
    some (.ReadingTable (src ++ [line])
      ⟨(t.columns.zip (fieldsOf line)).map (fun cx =>
        ⟨cx.1.alignment, cx.1.lines ++ [cx.2]⟩)⟩, [], [])

/-- Dispatch on the current state (the `match state` in `format_chunk`,
format.rs:112-116). -/
def processLine (strict : Bool) (st : ParseState) (nlSoFar : Nat)
    (line : Str) : Option (ParseState × Str × List Nat) :=
  match st with
  | .RegularText => some (process_regular_text line, [], [])
  | .CheckingHeader src hdrs =>
    (process_header line src hdrs).map (fun r => (r.1, r.2, []))
  | .ReadingTable src t => process_table line nlSoFar src t strict

/-- One iteration of `format_chunk`'s loop (format.rs:111-122): process the
line, then pass the raw line through verbatim iff the *new* state is
`RegularText`. -/
def stepLine (strict : Bool) (st : ParseState) (nlSoFar : Nat) (line : Str) :
    Option (ParseState × Str × List Nat) :=
  (processLine strict st nlSoFar line).map (fun r =>
    (r.1, r.2.1 ++ (if r.1.isRegular then line ++ ['\n'] else []), r.2.2))

/-- The loop of `format_chunk` over `chunk.lines()`, threading the state and
the chunk-local newline count. -/
def runLines (strict : Bool) :
    List Str → ParseState → Nat → Option (Str × ParseState × List Nat)
  | [], st, _ => some ([], st, [])
  | l :: ls, st, n =>
    match stepLine strict st n l with
    | none => none
    | some (st', add, ws) =>
      match runLines strict ls st' (n + countCh '\n' add) with
      | none => none
      | some (out, st'', ws') => some (add ++ out, st'', ws ++ ws')

/-- `format_chunk` (format.rs:108). -/
def format_chunk (strict : Bool) (chunk : Str) (st : ParseState) :
    Option (Str × ParseState × List Nat) :=
  runLines strict (linesOf chunk) st 0

/-- The chunk loop of `format_content` (format.rs:88-96): chunks alternate
prose/code starting with prose; code chunks are echoed wrapped in the fence
delimiters and skip the state machine. -/
def goChunks (strict : Bool) :
    List Str → Bool → ParseState → Option (Str × ParseState × List Nat)
  | [], _, st => some ([], st, [])
  | c :: cs, inCode, st =>
    if inCode then
      match goChunks strict cs false st with
      | none => none
      | some (o, st', ws) => some (fenceStr ++ c ++ fenceStr ++ o, st', ws)
    else
      match format_chunk strict c st with
      | none => none
      | some (o, st', ws) =>
        match goChunks strict cs true st' with
        | none => none
        | some (o2, st'', ws') => some (o ++ o2, st'', ws ++ ws')

/-- Everything of `format_content` before the end-of-input flush. -/
def formatCore (content : Str) (strict : Bool) :
    Option (Str × ParseState × List Nat) :=
  goChunks strict (splitOnFence content) false .RegularText

/-- The end-of-input flush of `format_content` (format.rs:98-102). -/
def flushOf (st : ParseState) : Option Str :=
  match st with
  | .RegularText => some []
  | .CheckingHeader src _ => some (src ++ ['\n'])
  | .ReadingTable _ t => t.write_output

/-- `format_content` (format.rs:83).  The Rust function returns
`Result<String, Box<dyn Error>>` but never constructs an `Err`; `none`
here models a panic/abort instead.  The second component is the list of
warning line numbers printed to stderr under `strict`. -/
def format_content (content : Str) (strict : Bool) :
    Option (Str × List Nat) := do
  let r ← formatCore content strict
  let f ← flushOf r.2.1
  some (r.1 ++ f, r.2.2)

/-- The returned text of `format_content` (the `Ok` string). -/
def formatText (content : Str) (strict : Bool) : Option Str :=
  (format_content content strict).map (·.1)

/-- Fence-freeness: no three consecutive backticks anywhere. -/
def hasFence : Str → Bool
  | [] => false
  | c :: rest => (isTriple (c :: rest)) || hasFence rest

/-- No carriage return anywhere. -/
def crFree (s : Str) : Prop := '\r' ∉ s

/-! ## Derived shapes of the renderer (used to state reparse lemmas) -/

/-- The width `write_output` computes for one column: max display width over
the column's cells, floored at 1 (defined value for an empty column is
irrelevant: `write_output` panics there). -/
def colWidth (c : TableColumn) : Nat :=
  match c.lines.map strWidth with
  | [] => 1
  | x :: xs => (xs.foldl Nat.max x).max 1

/-- The per-column widths computed by `write_output`. -/
def widthsOf (t : Table) : List Nat := t.columns.map colWidth

/-- The padded form of a (already trimmed) cell produced by
`pad_cell_content`: one leading space, the cell, then spaces up to display
width `w + 2`. -/
def padCell (c : Str) (w : Nat) : Str :=
  ' ' :: c ++ List.replicate (w + 1 - strWidth c) ' '

/-- A rendered row line (without its newline): `|`, then each piece
followed by `|`. -/
def rowStr (ps : List Str) : Str := '|' :: (ps.map (· ++ ['|'])).flatten

/-- One rendered separator cell: border, dashes, border. -/
def sepCellStr (al : TableAlignment) (w : Nat) : Str :=
  leftBorder al :: List.replicate w '-' ++ [rightBorder al]

/-- The padded cells of rendered row `i`. -/
def paddedRow (t : Table) (i : Nat) : List Str :=
  (t.columns.zip (widthsOf t)).map (fun cw => padCell (cw.1.lines.getD i []) cw.2)

/-- The separator cells of the rendered separator row. -/
def sepPieces (t : Table) : List Str :=
  (t.columns.zip (widthsOf t)).map (fun cw => sepCellStr cw.1.alignment cw.2)

/-- The number of rows `write_output` renders (`columns[0].lines.len()`). -/
def numRows (t : Table) : Nat :=
  match t.columns with
  | [] => 0
  | c :: _ => c.lines.length

/-- The lines (newlines stripped) of a rendered table. -/
def renderLines (t : Table) : List Str :=
  rowStr (paddedRow t 0) :: rowStr (sepPieces t) ::
    (List.range' 1 (numRows t - 1)).map (fun i => rowStr (paddedRow t i))

/-- The table truncated to its first `k` rows. -/
def tableTake (t : Table) (k : Nat) : Table :=
  ⟨t.columns.map (fun c => ⟨c.alignment, c.lines.take k⟩)⟩

/-! ## Invariants used in the proofs -/

/-- A well-behaved line: as produced by `linesOf` on a fence-free,
carriage-return-free document. -/
def lineOk (l : Str) : Prop := '\n' ∉ l ∧ '\r' ∉ l ∧ hasFence l = false

/-- A well-behaved stored cell: trimmed, and free of pipes, line breaks and
fence substrings (all automatic for cells parsed out of a well-behaved
line). -/
def cellOk (x : Str) : Prop :=
  rustTrim x = x ∧ '|' ∉ x ∧ '\n' ∉ x ∧ '\r' ∉ x ∧ hasFence x = false

/-- Invariants of every reachable in-progress `Table`: at least one column,
all columns of equal positive cell count, no `Right` alignment (unreachable
in the source because of the duplicated `align_left` guard), and
well-behaved cells. -/
def WFT (t : Table) : Prop :=
  t.columns ≠ [] ∧
  (∃ m, 1 ≤ m ∧ ∀ c ∈ t.columns, c.lines.length = m) ∧
  (∀ c ∈ t.columns, c.alignment ≠ .Right) ∧
  (∀ c ∈ t.columns, ∀ x ∈ c.lines, cellOk x)

/-- Invariants of every reachable parser state.  The key property is
self-replay: re-running the machine on the buffered raw source lines
rebuilds exactly this state while emitting nothing, which is what makes the
broken-table verbatim fallback re-parse stably. -/
def GoodSt (st : ParseState) : Prop :=
  match st with
  | .RegularText => True
  | .CheckingHeader src hdrs =>
    lineOk src ∧ process_regular_text src = .CheckingHeader src hdrs
  | .ReadingTable src t =>
    (∀ l ∈ src, lineOk l) ∧ WFT t ∧
    ∀ s n, runLines s src .RegularText n = some ([], .ReadingTable src t, [])

/-- Forget the warning component (state and emitted text only). -/
def textPart (r : Option (ParseState × Str × List Nat)) :
    Option (ParseState × Str) :=
  r.map (fun x => (x.1, x.2.1))

/-- Forget the warning component of a `runLines`/`goChunks` result. -/
def textState (r : Option (Str × ParseState × List Nat)) :
    Option (Str × ParseState) :=
  r.map (fun x => (x.1, x.2.1))

/-! ## Concrete evaluations settling individual claims -/

/-- C1: the claim says `format_content` returns `Ok` for every input and
never panics.  In fact the input `"|a|\n|:ä|\n"` makes `process_header`
slice `&"ä"[..1]` inside a multi-byte character (the trailing-colon strip
is erroneously guarded by `align_left`), which panics; the model yields
`none`. -/
theorem claim_c1_panic_input :
    format_content (str "|a|\n|:ä|\n") false = none := by decide

/-- C2: the claim says a separator cell ending (but not starting) with ':'
confirms the row and resolves that column to `Right`.  In fact the
duplicated `align_left` guard never strips the trailing ':', the all-dash
check fails, and the whole candidate table is emitted verbatim: no table is
recognized for `"|A|\n|---:|\n|1|\n"`. -/
theorem claim_c2_right_rejected :
    formatText (str "|A|\n|---:|\n|1|\n") false =
      some (str "|A|\n|---:|\n|1|\n") := by decide

/-- C3 counterexample: for the input `"```x"` (one fence delimiter, an odd
number), the output is `"```x```"`: the original text is preserved but a
closing fence is added, so the output does not reproduce exactly the fences
of the input (6 backticks out versus 3 in). -/
theorem claim_c3_counterexample :
    formatText (str "```x") false = some (str "```x```") ∧
    countCh '`' (str "```x```") = 6 ∧ countCh '`' (str "```x") = 3 := by
  refine ⟨by decide, by decide, by decide⟩

/-- C5 counterexample: formatting is not idempotent.  On `"````"` (four
backticks) the first pass yields seven backticks, and formatting that again
appends a newline, giving a different string. -/
theorem claim_c5_counterexample :
    formatText (str "````") false = some (str "```````") ∧
    formatText (str "```````") false = some (str "```````\n") ∧
    str "```````\n" ≠ str "```````" := by
  refine ⟨by decide, by decide, by decide⟩

/-- C6 counterexample: on `"|A|B|C|D|\n|:-|-:|:-:|---|\n|1|2|3|4|\n"` the
claim asserts a rendered, aligned table; in fact the separator cells `:-`
and `-:` fail the length ≥ 3 check, so the input is returned verbatim and
differs from the claimed rendering. -/
theorem claim_c6_counterexample :
    formatText (str "|A|B|C|D|\n|:-|-:|:-:|---|\n|1|2|3|4|\n") false =
      some (str "|A|B|C|D|\n|:-|-:|:-:|---|\n|1|2|3|4|\n") ∧
    str "|A|B|C|D|\n|:-|-:|:-:|---|\n|1|2|3|4|\n" ≠
      str "| A | B | C | D |\n|:--|--:|:-:|---|\n| 1 | 2 | 3 | 4 |\n" := by
  refine ⟨by decide, by decide⟩

/-- C6 amended: that input is passed through verbatim (for both values of
`strict`), because the separator cells `:-` and `-:` fail the byte-length
≥ 3 requirement on separator cells, so the header is never confirmed. -/
theorem claim_c6_amended (s : Bool) :
    formatText (str "|A|B|C|D|\n|:-|-:|:-:|---|\n|1|2|3|4|\n") s =
      some (str "|A|B|C|D|\n|:-|-:|:-:|---|\n|1|2|3|4|\n") := by
  cases s <;> decide

/-- C4 counterexample: after the confirmed 2-column table `|a|b|`/`|---|---|`,
the 3-field line `|A|B|C|` is *not* reclassified as a fresh header (though
it is followed by the valid separator `|---|---|---|` and a row): the whole
document is returned verbatim, not the claimed re-rendered new table. -/
theorem claim_c4_counterexample :
    formatText (str "|a|b|\n|---|---|\n|A|B|C|\n|---|---|---|\n|1|2|3|\nZ\n")
        false =
      some (str "|a|b|\n|---|---|\n|A|B|C|\n|---|---|---|\n|1|2|3|\nZ\n") ∧
    str "|a|b|\n|---|---|\n|A|B|C|\n|---|---|---|\n|1|2|3|\nZ\n" ≠
      str "|a|b|\n|---|---|\n| A | B | C |\n|---|---|---|\n| 1 | 2 | 3 |\nZ\n"
    := by
  refine ⟨by decide, by decide⟩

/-- C10: the parser state persists across code-fence boundaries.  For the
input `"|a|\n```c```|---|\n|x|\nZ\n"` the header before the fenced block
and the separator after it form one table, rendered after the echoed code
block rather than at the header's original position. -/
theorem claim_c10_state_across_fences :
    formatText (str "|a|\n```c```|---|\n|x|\nZ\n") false =
      some (str "```c```| a |\n|---|\n| x |\nZ\n") := by decide

/-! ## C7: terminal handling at end of input -/

/-- C7: at end of input, a buffered `CheckingHeader` emits its raw header
line plus a newline after all other output, and a pending `ReadingTable`
renders and flushes the accumulated table. -/
theorem claim_c7_terminal_flush :
    (∀ d s o src hdrs ws,
      formatCore d s = some (o, .CheckingHeader src hdrs, ws) →
      formatText d s = some (o ++ (src ++ ['\n']))) ∧
    (∀ d s o srcT t ws r,
      formatCore d s = some (o, .ReadingTable srcT t, ws) →
      t.write_output = some r →
      formatText d s = some (o ++ r)) := by
  constructor
  · intro d s o src hdrs ws h
    simp [formatText, format_content, h, flushOf]
  · intro d s o srcT t ws r h hr
    simp [formatText, format_content, h, flushOf, hr]

/-- Witness for C7: a document that ends while checking a header emits the
raw header line; a document that ends mid-table (without a trailing
newline) still renders the full table. -/
theorem claim_c7_terminal_flush_witness :
    formatText (str "|h|") false = some ([] ++ (str "|h|" ++ ['\n'])) ∧
    formatText (str "|h|\n|---|") false = some ([] ++ str "| h |\n|---|\n") :=
  ⟨claim_c7_terminal_flush.1 (str "|h|") false [] (str "|h|") [str "h"] []
      (by decide),
   claim_c7_terminal_flush.2 (str "|h|\n|---|") false []
      [str "|h|", str "|---|"] ⟨[⟨.None, [str "h"]⟩]⟩ []
      (str "| h |\n|---|\n") (by decide) (by decide)⟩

/-! ## C9: equal cell counts across the columns of a table -/

/-- Columns built by `process_header`'s loop hold exactly the one header
cell each. -/
theorem buildColumns_lines_len :
    ∀ (ps : List (Str × Str)) (cols : List TableColumn),
      buildColumns ps = some (some cols) → ∀ c ∈ cols, c.lines.length = 1 := by
  intro ps
  induction ps with
  | nil =>
    intro cols h c hc
    simp only [buildColumns, Option.some.injEq] at h
    subst h
    simp at hc
  | cons p rest ih =>
    intro cols h c hc
    unfold buildColumns at h
    cases hp : parseSepCell p.2 with
    | none => rw [hp] at h; simp at h
    | some o =>
      cases o with
      | none => rw [hp] at h; simp at h
      | some al =>
        rw [hp] at h
        cases hb : buildColumns rest with
        | none => rw [hb] at h; simp at h
        | some o2 =>
          cases o2 with
          | none => rw [hb] at h; simp at h
          | some cols' =>
            rw [hb] at h
            simp only [Option.some.injEq] at h
            subst h
            rcases List.mem_cons.mp hc with hc1 | hc2
            · subst hc1; simp
            · exact ih cols' hb c hc2

/-- C9: every column of a reachable table holds the same number of cells:
a table created by `process_header` gives every column exactly one cell
(the header), and every row accepted by `process_table` appends exactly one
cell to every column, taking all columns from `k` to `k + 1` cells. -/
theorem claim_c9_equal_column_lengths :
    (∀ line src hdrs srcT t add,
      process_header line src hdrs = some (.ReadingTable srcT t, add) →
      ∀ c ∈ t.columns, c.lines.length = 1) ∧
    (∀ line n src t strict srcT' t' add ws k,
      process_table line n src t strict = some (.ReadingTable srcT' t', add, ws) →
      (∀ c ∈ t.columns, c.lines.length = k) →
      ∀ c ∈ t'.columns, c.lines.length = k + 1) := by
  constructor
  · intro line src hdrs srcT t add h
    unfold process_header at h
    split at h
    · simp at h
    · split at h
      · simp at h
      · cases hb : buildColumns (hdrs.zip (fieldsOf line)) with
        | none => rw [hb] at h; simp at h
        | some o =>
          cases o with
          | none => rw [hb] at h; simp at h
          | some cols =>
            rw [hb] at h
            simp only [Option.some.injEq, Prod.mk.injEq] at h
            obtain ⟨h1, -⟩ := h
            cases h1
            exact buildColumns_lines_len _ cols hb
  · intro line n src t strict srcT' t' add ws k h hk c hc
    unfold process_table at h
    split at h
    · cases hw : t.write_output with
      | none => rw [hw] at h; simp at h
      | some r => rw [hw] at h; simp at h
    · split at h
      · simp at h
      · simp only [Option.some.injEq, Prod.mk.injEq,
          ParseState.ReadingTable.injEq] at h
        obtain ⟨⟨-, ht⟩, -, -⟩ := h
        subst ht
        simp only [List.mem_map] at hc
        obtain ⟨cx, hmem, hceq⟩ := hc
        have hin := List.of_mem_zip hmem
        subst hceq
        simp [hk cx.1 hin.1]

/-- Witness for C9: the 1-column table built from header `|h|` and
separator `|---|` has one cell per column, and appending the row `|1|`
yields two cells per column. -/
theorem claim_c9_equal_column_lengths_witness :
    (∀ c ∈ (Table.mk [⟨TableAlignment.None, [str "h"]⟩]).columns,
      c.lines.length = 1) ∧
    (∀ c ∈ (Table.mk [⟨TableAlignment.None, [str "h", str "1"]⟩]).columns,
      c.lines.length = 1 + 1) :=
  ⟨claim_c9_equal_column_lengths.1 (str "|---|") (str "|h|") [str "h"]
      [str "|h|", str "|---|"] ⟨[⟨.None, [str "h"]⟩]⟩ [] (by decide),
   claim_c9_equal_column_lengths.2 (str "|1|") 0 [str "|h|", str "|---|"]
      ⟨[⟨.None, [str "h"]⟩]⟩ false [str "|h|", str "|---|", str "|1|"]
      ⟨[⟨.None, [str "h", str "1"]⟩]⟩ [] [] 1 (by decide) (by decide)⟩

/-! ## C8: `strict` only affects the diagnostic channel -/

/-- `process_table` under `strict = true` and `strict = false`: same new
state and same appended text; only the warning list may differ. -/
theorem process_table_strict_shape (line : Str) (n : Nat) (src : List Str)
    (t : Table) :
    (process_table line n src t true = none ∧
     process_table line n src t false = none) ∨
    (∃ st' add w1 w2, process_table line n src t true = some (st', add, w1) ∧
      process_table line n src t false = some (st', add, w2)) := by
  unfold process_table
  split
  · cases t.write_output with
    | none => exact Or.inl ⟨rfl, rfl⟩
    | some r => exact Or.inr ⟨_, _, _, _, rfl, rfl⟩
  · split
    · exact Or.inr ⟨_, _, [1 + n], [], rfl, rfl⟩
    · exact Or.inr ⟨_, _, _, _, rfl, rfl⟩

/-- `processLine` under the two strictness values: same state and text. -/
theorem processLine_strict_shape (st : ParseState) (n : Nat) (line : Str) :
    (processLine true st n line = none ∧
     processLine false st n line = none) ∨
    (∃ st' add w1 w2, processLine true st n line = some (st', add, w1) ∧
      processLine false st n line = some (st', add, w2)) := by
  cases st with
  | RegularText => exact Or.inr ⟨_, _, _, _, rfl, rfl⟩
  | CheckingHeader src hdrs =>
    cases h : process_header line src hdrs with
    | none => exact Or.inl ⟨by simp [processLine, h], by simp [processLine, h]⟩
    | some r =>
      exact Or.inr ⟨r.1, r.2, [], [], by simp [processLine, h],
        by simp [processLine, h]⟩
  | ReadingTable src t => exact process_table_strict_shape line n src t

/-- `stepLine` under the two strictness values: same state and text. -/
theorem stepLine_strict_shape (st : ParseState) (n : Nat) (line : Str) :
    (stepLine true st n line = none ∧ stepLine false st n line = none) ∨
    (∃ st' add w1 w2, stepLine true st n line = some (st', add, w1) ∧
      stepLine false st n line = some (st', add, w2)) := by
  rcases processLine_strict_shape st n line with ⟨h1, h2⟩ | ⟨st', add, w1, w2, h1, h2⟩
  · exact Or.inl ⟨by simp [stepLine, h1], by simp [stepLine, h2]⟩
  · exact Or.inr ⟨st', add ++ (if st'.isRegular then line ++ ['\n'] else []),
      w1, w2, by simp [stepLine, h1], by simp [stepLine, h2]⟩

/-- `runLines` under the two strictness values: same text and final state. -/
theorem runLines_strict_shape :
    ∀ (ls : List Str) (st : ParseState) (n : Nat),
    (runLines true ls st n = none ∧ runLines false ls st n = none) ∨
    (∃ o st' w1 w2, runLines true ls st n = some (o, st', w1) ∧
      runLines false ls st n = some (o, st', w2)) := by
  intro ls
  induction ls with
  | nil => intro st n; exact Or.inr ⟨[], st, [], [], rfl, rfl⟩
  | cons l ls ih =>
    intro st n
    rcases stepLine_strict_shape st n l with ⟨h1, h2⟩ | ⟨st', add, w1, w2, h1, h2⟩
    · exact Or.inl ⟨by simp [runLines, h1], by simp [runLines, h2]⟩
    · rcases ih st' (n + countCh '\n' add) with ⟨g1, g2⟩ |
        ⟨o, st'', v1, v2, g1, g2⟩
      · exact Or.inl ⟨by simp [runLines, h1, g1], by simp [runLines, h2, g2]⟩
      · exact Or.inr ⟨add ++ o, st'', w1 ++ v1, w2 ++ v2,
          by simp [runLines, h1, g1], by simp [runLines, h2, g2]⟩

/-- `goChunks` under the two strictness values: same text and final state. -/
theorem goChunks_strict_shape :
    ∀ (cs : List Str) (inCode : Bool) (st : ParseState),
    (goChunks true cs inCode st = none ∧ goChunks false cs inCode st = none) ∨
    (∃ o st' w1 w2, goChunks true cs inCode st = some (o, st', w1) ∧
      goChunks false cs inCode st = some (o, st', w2)) := by
  intro cs
  induction cs with
  | nil => intro inCode st; exact Or.inr ⟨[], st, [], [], rfl, rfl⟩
  | cons c cs ih =>
    intro inCode st
    cases inCode with
    | true =>
      rcases ih false st with ⟨g1, g2⟩ | ⟨o, st', v1, v2, g1, g2⟩
      · exact Or.inl ⟨by simp [goChunks, g1], by simp [goChunks, g2]⟩
      · exact Or.inr ⟨fenceStr ++ c ++ fenceStr ++ o, st', v1, v2,
          by simp [goChunks, g1], by simp [goChunks, g2]⟩
    | false =>
      rcases runLines_strict_shape (linesOf c) st 0 with ⟨h1, h2⟩ |
        ⟨o, st', w1, w2, h1, h2⟩
      · exact Or.inl ⟨by simp [goChunks, format_chunk, h1],
          by simp [goChunks, format_chunk, h2]⟩
      · rcases ih true st' with ⟨g1, g2⟩ | ⟨o2, st'', v1, v2, g1, g2⟩
        · exact Or.inl ⟨by simp [goChunks, format_chunk, h1, g1],
            by simp [goChunks, format_chunk, h2, g2]⟩
        · exact Or.inr ⟨o ++ o2, st'', w1 ++ v1, w2 ++ v2,
            by simp [goChunks, format_chunk, h1, g1],
            by simp [goChunks, format_chunk, h2, g2]⟩

/-- C8: the `strict` flag never changes the returned text: the `Ok` value
of `format_content` is the same for `strict = true` and `strict = false`
on every input (strictness only toggles warnings on the diagnostic
channel). -/
theorem claim_c8_strict_same_text (d : Str) :
    formatText d true = formatText d false := by
  rcases goChunks_strict_shape (splitOnFence d) false .RegularText with
    ⟨h1, h2⟩ | ⟨o, st', w1, w2, h1, h2⟩
  · simp [formatText, format_content, formatCore, h1, h2]
  · cases hf : flushOf st' with
    | none => simp [formatText, format_content, formatCore, h1, h2, hf]
    | some f => simp [formatText, format_content, formatCore, h1, h2, hf]

/-! ## Fence-splitting lemmas, C3 amended, C4 amended -/

/-- A string with a fence somewhere keeps it under prepending. -/
theorem hasFence_append_right (x y : Str) (h : hasFence y = true) :
    hasFence (x ++ y) = true := by
  induction x with
  | nil => simpa
  | cons a x ih => simp [hasFence, ih]

/-- `fenceGo` on a fence-free rest produces a single chunk. -/
theorem fenceGo_no_fence :
    ∀ (t cur : Str) (run : Nat), run ≤ 2 →
    hasFence (List.replicate run '`' ++ t) = false →
    fenceGo cur run t = [cur.reverse ++ List.replicate run '`' ++ t] := by
  intro t
  induction t with
  | nil => intro cur run _ _; simp [fenceGo]
  | cons c rest ih =>
    intro cur run hrun hf
    by_cases hc : c = '`'
    · subst hc
      have hrep : List.replicate run '`' ++ '`' :: rest =
          List.replicate (run + 1) '`' ++ rest := by
        rw [List.replicate_add]
        simp
      by_cases h2 : run = 2
      · exfalso
        subst h2
        rw [hrep] at hf
        simp [hasFence, isTriple, List.replicate] at hf
      · have hr1 : run + 1 ≤ 2 := by omega
        rw [hrep] at hf
        have hstep : fenceGo cur run ('`' :: rest) = fenceGo cur (run + 1) rest := by
          simp [fenceGo, h2]
        rw [hstep, ih cur (run + 1) hr1 hf]
        simp [hrep]
    · have hf' : hasFence rest = false := by
        by_contra hx
        rw [Bool.not_eq_false] at hx
        have hup := hasFence_append_right (List.replicate run '`' ++ [c]) rest hx
        rw [List.append_assoc] at hup
        simp only [List.singleton_append] at hup
        rw [hup] at hf
        simp at hf
      have hstep : fenceGo cur run (c :: rest) =
          fenceGo (c :: (List.replicate run '`' ++ cur)) 0 rest := by
        simp [fenceGo, hc]
      rw [hstep, ih (c :: (List.replicate run '`' ++ cur)) 0 (by omega)
        (by simpa using hf')]
      simp

/-- `split("```")` of a fence-free string is that single string. -/
theorem splitOnFence_no_fence (t : Str) (h : hasFence t = false) :
    splitOnFence t = [t] := by
  have := fenceGo_no_fence t [] 0 (by omega) (by simpa using h)
  simpa [splitOnFence] using this

/-- `split("```")` of a fence followed by fence-free text. -/
theorem splitOnFence_fence_prefix (t : Str) (h : hasFence t = false) :
    splitOnFence (fenceStr ++ t) = [[], t] := by
  show fenceGo [] 0 ('`' :: '`' :: '`' :: t) = [[], t]
  simp only [fenceGo, if_pos rfl]
  norm_num
  exact fenceGo_no_fence t [] 0 (by omega) (by simpa using h)

/-- C3 amended: an odd number of fences is tolerated and the final
unmatched span's text is preserved byte-for-byte, but it is emitted wrapped
in fences on *both* sides, i.e. the formatter appends one closing ``` fence
delimiter that is not present in the input (so the input's fences are not
reproduced exactly). -/
theorem claim_c3_amended (t : Str) (s : Bool) (h : hasFence t = false) :
    formatText (fenceStr ++ t) s = some (fenceStr ++ t ++ fenceStr) := by
  have hs := splitOnFence_fence_prefix t h
  have ht : fenceGo [] 0 t = [t] := by
    have := splitOnFence_no_fence t h
    simpa [splitOnFence] using this
  simp [formatText, format_content, formatCore, hs, ht, goChunks,
    format_chunk, linesOf, linesGo, runLines, flushOf]

/-- Witness for C3 amended at the concrete unmatched span `x`. -/
theorem claim_c3_amended_witness :
    hasFence (str "x") = false ∧
    formatText (fenceStr ++ str "x") false =
      some (fenceStr ++ str "x" ++ fenceStr) :=
  ⟨by decide, claim_c3_amended (str "x") false (by decide)⟩

/-- C4 amended: when a body line's field count disagrees with the table,
the step emits the buffered raw source lines verbatim followed by the
mismatched line itself verbatim, and returns to `RegularText`; the
mismatched line is consumed as plain text in the same step (it is *not*
re-examined as a fresh header candidate — only lines after it can start a
new table).  Under `strict` the step also emits the advisory warning with
the 1-based line number. -/
theorem claim_c4_amended (line : Str) (n : Nat) (src : List Str) (t : Table)
    (s : Bool) (hp : isPipe line = true)
    (hn : (fieldsOf line).length ≠ t.columns.length) :
    stepLine s (.ReadingTable src t) n line =
      some (.RegularText, joinNl src ++ (line ++ ['\n']),
        if s then [1 + n] else []) := by
  simp [stepLine, processLine, process_table, hp, hn, ParseState.isRegular]

/-- Witness for C4 amended: the 3-field line `|A|B|C|` after the 2-column
table `|a|b|`/`|---|---|` is emitted verbatim right after the buffered
source and the machine is back in `RegularText`. -/
theorem claim_c4_amended_witness :
    stepLine false
      (.ReadingTable [str "|a|b|", str "|---|---|"]
        ⟨[⟨.None, [str "a"]⟩, ⟨.None, [str "b"]⟩]⟩) 0 (str "|A|B|C|") =
      some (.RegularText,
        joinNl [str "|a|b|", str "|---|---|"] ++ (str "|A|B|C|" ++ ['\n']),
        if false then [1 + 0] else []) :=
  claim_c4_amended (str "|A|B|C|") 0 [str "|a|b|", str "|---|---|"]
    ⟨[⟨.None, [str "a"]⟩, ⟨.None, [str "b"]⟩]⟩ false (by decide) (by decide)

/-! ## Primitive lemmas: trimming -/

theorem trimEnd_eq_rdropWhile (s : Str) :
    trimEnd s = List.rdropWhile rustIsWs s := rfl

theorem trimStart_cons_neg {c : Char} (t : Str) (h : rustIsWs c = false) :
    trimStart (c :: t) = c :: t := by
  simp [trimStart, List.dropWhile_cons, h]

theorem trimEnd_concat_neg {c : Char} (t : Str) (h : rustIsWs c = false) :
    trimEnd (t ++ [c]) = t ++ [c] := by
  rw [trimEnd_eq_rdropWhile]
  exact List.rdropWhile_concat_neg _ _ _ (by simp [h])

theorem trimEnd_append_spaces (x : Str) (k : Nat) :
    trimEnd (x ++ List.replicate k ' ') = trimEnd x := by
  induction k with
  | zero => simp
  | succ k ih =>
    rw [List.replicate_succ' k ' ', ← List.append_assoc, trimEnd_eq_rdropWhile,
      List.rdropWhile_concat_pos _ _ _ (by simp [rustIsWs])]
    exact ih

theorem trimStart_head_not (s : Str) {c : Char} {t : Str}
    (h : trimStart s = c :: t) : rustIsWs c = false := by
  simp only [trimStart] at h
  have h0 : List.dropWhile rustIsWs s ≠ [] := by simp [h]
  have h1 := List.head_dropWhile_not rustIsWs s h0
  rw [show (List.dropWhile rustIsWs s).head h0 = c by simp [h]] at h1
  simpa using h1

theorem trimEnd_prefix_self (s : Str) : trimEnd s <+: s := by
  rw [trimEnd_eq_rdropWhile]; exact List.rdropWhile_prefix _ _

theorem trimStart_suffix (s : Str) : trimStart s <:+ s :=
  List.dropWhile_suffix _

theorem rustTrim_infix_self (s : Str) : rustTrim s <:+: s :=
  ((trimEnd_prefix_self (trimStart s)).isInfix).trans (trimStart_suffix s).isInfix

theorem trimStart_eq_self_of_rustTrim (c : Str) (hc : rustTrim c = c) :
    trimStart c = c := by
  have h1 : (trimStart c).length ≤ c.length :=
    (trimStart_suffix c).sublist.length_le
  have h2 : (rustTrim c).length ≤ (trimStart c).length :=
    (trimEnd_prefix_self (trimStart c)).sublist.length_le
  rw [hc] at h2
  exact (trimStart_suffix c).sublist.eq_of_length (le_antisymm h1 h2)

theorem trimEnd_eq_self_of_rustTrim (c : Str) (hc : rustTrim c = c) :
    trimEnd c = c := by
  have := hc
  rw [show rustTrim c = trimEnd (trimStart c) from rfl,
    trimStart_eq_self_of_rustTrim c hc] at this
  exact this

theorem rustTrim_head_not (c : Str) {c0 : Char} {t0 : Str}
    (hc : rustTrim c = c) (he : c = c0 :: t0) : rustIsWs c0 = false := by
  apply trimStart_head_not c
  rw [trimStart_eq_self_of_rustTrim c hc, he]

theorem rustTrim_idem (s : Str) : rustTrim (rustTrim s) = rustTrim s := by
  show trimEnd (trimStart (trimEnd (trimStart s))) = trimEnd (trimStart s)
  have h1 : trimStart (trimEnd (trimStart s)) = trimEnd (trimStart s) := by
    cases he : trimEnd (trimStart s) with
    | nil => rfl
    | cons c t =>
      apply trimStart_cons_neg
      have hpre := trimEnd_prefix_self (trimStart s)
      rw [he] at hpre
      obtain ⟨u, hu⟩ := hpre
      exact trimStart_head_not s hu.symm
  rw [h1, trimEnd_eq_rdropWhile, trimEnd_eq_rdropWhile,
    List.rdropWhile_idempotent]

theorem rustTrim_eq_self_of_ends (s : Str)
    (hh : ∀ c t, s = c :: t → rustIsWs c = false)
    (hl : ∀ x, s.getLast? = some x → rustIsWs x = false) : rustTrim s = s := by
  have h1 : trimStart s = s := by
    cases he : s with
    | nil => rfl
    | cons c t => exact he ▸ trimStart_cons_neg t (hh c t he)
  show trimEnd (trimStart s) = s
  rw [h1, trimEnd_eq_rdropWhile, List.rdropWhile_eq_self_iff]
  intro hne
  have := hl (s.getLast hne) (List.getLast?_eq_getLast s hne)
  simp [this]

theorem rustTrim_pad (c : Str) (k : Nat) (hc : rustTrim c = c) :
    rustTrim (' ' :: (c ++ List.replicate k ' ')) = c := by
  show trimEnd (trimStart (' ' :: (c ++ List.replicate k ' '))) = c
  have h1 : trimStart (' ' :: (c ++ List.replicate k ' ')) =
      trimStart (c ++ List.replicate k ' ') := by
    simp [trimStart, List.dropWhile_cons, rustIsWs]
  rw [h1]
  cases he : c with
  | nil =>
    simp only [List.nil_append]
    have h2 : trimStart (List.replicate k ' ') = [] := by
      simp only [trimStart, List.dropWhile_eq_nil_iff]
      intro x hx
      rw [List.eq_of_mem_replicate hx]
      simp [rustIsWs]
    rw [h2]
    rfl
  | cons c0 t0 =>
    have hh : rustIsWs c0 = false := rustTrim_head_not c hc he
    rw [← he]
    have h3 : trimStart (c ++ List.replicate k ' ') = c ++ List.replicate k ' ' := by
      rw [he, List.cons_append]
      exact trimStart_cons_neg _ hh
    rw [h3, trimEnd_append_spaces, trimEnd_eq_self_of_rustTrim c hc]

/-! ## Primitive lemmas: widths and UTF-8 bytes -/

theorem strWidth_append (a b : Str) :
    strWidth (a ++ b) = strWidth a + strWidth b := by
  simp [strWidth]

theorem strWidth_le_of_infix {l s : Str} (h : l <:+: s) :
    strWidth l ≤ strWidth s := by
  obtain ⟨u, v, huv⟩ := h
  subst huv
  simp only [strWidth_append]
  omega

theorem strWidth_trim_le (s : Str) : strWidth (rustTrim s) ≤ strWidth s :=
  strWidth_le_of_infix (rustTrim_infix_self s)

theorem byteLen_of_one (s : Str) (h : ∀ c ∈ s, utf8Len c = 1) :
    byteLen s = s.length := by
  induction s with
  | nil => rfl
  | cons c t ih =>
    have h1 : utf8Len c = 1 := h c (by simp)
    have h2 : byteLen t = t.length := ih (fun x hx => h x (by simp [hx]))
    simp only [byteLen, List.map_cons, List.sum_cons, List.length_cons] at h2 ⊢
    omega

theorem byteTake_of_one :
    ∀ (s : Str) (n : Nat), (∀ c ∈ s, utf8Len c = 1) → n ≤ s.length →
    byteTake n s = some (s.take n) := by
  intro s
  induction s with
  | nil =>
    intro n _ hn
    have h0 : n = 0 := by simpa using hn
    subst h0
    rfl
  | cons c t ih =>
    intro n h hn
    cases n with
    | zero => rfl
    | succ n =>
      have hc : utf8Len c = 1 := h c (by simp)
      simp only [byteTake, hc]
      rw [if_pos (by omega)]
      simp only [Nat.add_sub_cancel]
      rw [ih n (fun x hx => h x (by simp [hx])) (by simpa using hn)]
      simp

theorem byteDropLastByte_of_one (s : Str) (hne : s ≠ [])
    (h : ∀ c ∈ s, utf8Len c = 1) :
    byteDropLastByte s = some s.dropLast := by
  rw [byteDropLastByte, if_neg hne, byteLen_of_one s h,
    byteTake_of_one s (s.length - 1) h (by omega), List.dropLast_eq_take]

/-! ## Primitive lemmas: splitting -/

theorem splitGo_no_sep (sep : Char) :
    ∀ (p : Str) (cur : Str), sep ∉ p →
    splitGo sep cur p = [cur.reverse ++ p] := by
  intro p
  induction p with
  | nil => intro cur _; simp [splitGo]
  | cons c t ih =>
    intro cur h
    have hc : ¬c = sep := fun he => h (by simp [he])
    simp only [splitGo, if_neg hc]
    rw [ih (c :: cur) (fun hm => h (by simp [hm]))]
    simp

theorem splitGo_append_sep (sep : Char) :
    ∀ (p : Str) (cur rest : Str), sep ∉ p →
    splitGo sep cur (p ++ sep :: rest) =
      (cur.reverse ++ p) :: splitGo sep [] rest := by
  intro p
  induction p with
  | nil => intro cur rest _; simp [splitGo]
  | cons c t ih =>
    intro cur rest h
    have hc : ¬c = sep := fun he => h (by simp [he])
    simp only [List.cons_append, splitGo, if_neg hc, List.append_eq]
    rw [ih (c :: cur) rest (fun hm => h (by simp [hm]))]
    simp

theorem splitChar_flatten_concat (sep : Char) :
    ∀ ps : List Str, (∀ p ∈ ps, sep ∉ p) →
    splitChar sep ((ps.map (· ++ [sep])).flatten) = ps ++ [[]] := by
  intro ps
  induction ps with
  | nil => intro _; simp [splitChar, splitGo]
  | cons p rest ih =>
    intro h
    simp only [List.map_cons, List.flatten_cons, List.append_assoc,
      List.singleton_append, splitChar]
    rw [splitGo_append_sep sep p [] _ (h p (by simp))]
    rw [show splitGo sep [] ((rest.map (· ++ [sep])).flatten) =
      splitChar sep ((rest.map (· ++ [sep])).flatten) from rfl]
    rw [ih (fun q hq => h q (by simp [hq]))]
    simp

theorem splitGo_infix (sep : Char) :
    ∀ (s cur f : Str), f ∈ splitGo sep cur s → f <:+: (cur.reverse ++ s) := by
  intro s
  induction s with
  | nil =>
    intro cur f hf
    simp only [splitGo, List.mem_singleton] at hf
    subst hf
    simp
  | cons c rest ih =>
    intro cur f hf
    by_cases hc : c = sep
    · rw [show splitGo sep cur (c :: rest) = cur.reverse :: splitGo sep [] rest
        by simp [splitGo, hc]] at hf
      rcases List.mem_cons.mp hf with hf1 | hf2
      · subst hf1
        exact ((List.prefix_append cur.reverse (c :: rest)).isInfix)
      · have h2 := ih [] f hf2
        simp only [List.reverse_nil, List.nil_append] at h2
        obtain ⟨u, v, huv⟩ := h2
        exact ⟨cur.reverse ++ c :: u, v, by simp [← huv]⟩
    · rw [show splitGo sep cur (c :: rest) = splitGo sep (c :: cur) rest
        by simp [splitGo, hc]] at hf
      have h2 := ih (c :: cur) f hf
      simpa using h2

theorem splitChar_infix (sep : Char) (s f : Str) (h : f ∈ splitChar sep s) :
    f <:+: s := by
  have := splitGo_infix sep s [] f h
  simpa using this

theorem splitGo_no_sep_mem (sep : Char) :
    ∀ (s cur : Str), sep ∉ cur → ∀ f ∈ splitGo sep cur s, sep ∉ f := by
  intro s
  induction s with
  | nil =>
    intro cur hcur f hf
    simp only [splitGo, List.mem_singleton] at hf
    subst hf
    simpa using hcur
  | cons c rest ih =>
    intro cur hcur f hf
    by_cases hc : c = sep
    · rw [show splitGo sep cur (c :: rest) = cur.reverse :: splitGo sep [] rest
        by simp [splitGo, hc]] at hf
      rcases List.mem_cons.mp hf with hf1 | hf2
      · subst hf1; simpa using hcur
      · exact ih [] (by simp) f hf2
    · rw [show splitGo sep cur (c :: rest) = splitGo sep (c :: cur) rest
        by simp [splitGo, hc]] at hf
      exact ih (c :: cur) (by simp [hcur, Ne.symm hc]) f hf

theorem splitChar_no_sep (sep : Char) (s : Str) :
    ∀ f ∈ splitChar sep s, sep ∉ f :=
  splitGo_no_sep_mem sep s [] (by simp)

theorem splitTerminator_subset (sep : Char) (s : Str) :
    ∀ f ∈ splitTerminator sep s, f ∈ splitChar sep s := by
  intro f hf
  simp only [splitTerminator] at hf
  split at hf
  · exact List.dropLast_subset _ hf
  · exact hf

/-! ## Primitive lemmas: fence detection -/

theorem isTriple_false_of_head {c : Char} (r : Str) (h : ¬c = '`') :
    isTriple (c :: r) = false := by
  cases r with
  | nil => rfl
  | cons d r' =>
    cases r' with
    | nil => rfl
    | cons e r'' => simp [isTriple, h]

theorem isTriple_append {x : Str} (y : Str) (h : isTriple x = true) :
    isTriple (x ++ y) = true := by
  match x, h with
  | a :: b :: c :: t, h =>
    simp only [isTriple] at h
    simpa [isTriple] using h

theorem hasFence_append_left {l : Str} (v : Str) (h : hasFence l = true) :
    hasFence (l ++ v) = true := by
  induction l with
  | nil => simp [hasFence] at h
  | cons c t ih =>
    simp only [hasFence, Bool.or_eq_true] at h ⊢
    rcases h with h | h
    · exact Or.inl (by simpa using isTriple_append (y := v) (x := c :: t) h)
    · exact Or.inr (ih h)

theorem hasFence_infix_true {l s : Str} (hinf : l <:+: s) (h : hasFence l = true) :
    hasFence s = true := by
  obtain ⟨u, v, huv⟩ := hinf
  subst huv
  rw [List.append_assoc]
  exact hasFence_append_right u (l ++ v) (hasFence_append_left v h)

theorem hasFence_false_of_infix {l s : Str} (hinf : l <:+: s)
    (h : hasFence s = false) : hasFence l = false := by
  by_contra hx
  rw [Bool.not_eq_false] at hx
  rw [hasFence_infix_true hinf hx] at h
  cases h

theorem hasFence_no_bt {s : Str} (h : '`' ∉ s) : hasFence s = false := by
  induction s with
  | nil => rfl
  | cons c t ih =>
    have hc : ¬c = '`' := fun he => h (by simp [he])
    simp only [hasFence, Bool.or_eq_false_iff]
    exact ⟨isTriple_false_of_head t hc, ih (fun hm => h (by simp [hm]))⟩

theorem isTriple_of_three {c d e : Char} (r r' : Str) :
    isTriple (c :: d :: e :: r) = isTriple (c :: d :: e :: r') := by
  simp [isTriple]

theorem isTriple_cons_of_head_tail {c : Char} {b : Str}
    (hb : b.head? ≠ some '`') : isTriple (c :: b) = false := by
  cases b with
  | nil => rfl
  | cons d r =>
    have hd : ¬d = '`' := by simpa using hb
    cases r with
    | nil => rfl
    | cons e r' => simp [isTriple, hd]

theorem hasFence_break_right {a : Str} (b : Str) (ha : hasFence a = false)
    (hb : hasFence b = false) (hh : b.head? ≠ some '`') :
    hasFence (a ++ b) = false := by
  induction a with
  | nil => simpa using hb
  | cons c t ih =>
    simp only [hasFence, Bool.or_eq_false_iff] at ha
    have ih2 := ih ha.2
    rw [List.cons_append]
    simp only [hasFence, Bool.or_eq_false_iff]
    refine ⟨?_, ih2⟩
    cases t with
    | nil =>
      rw [List.nil_append]
      exact isTriple_cons_of_head_tail hh
    | cons d t' =>
      cases t' with
      | nil =>
        rw [List.cons_append, List.nil_append]
        cases hbb : b with
        | nil => rfl
        | cons e b' =>
          have he : ¬e = '`' := by rw [hbb] at hh; simpa using hh
          simp [isTriple, he]
      | cons e t'' =>
        rw [List.cons_append, List.cons_append]
        rw [isTriple_of_three (t'' ++ b) t'']
        exact ha.1

theorem hasFence_break_left {a : Str} (b : Str) (ha : hasFence a = false)
    (hb : hasFence b = false) (hl : a.getLast? ≠ some '`') :
    hasFence (a ++ b) = false := by
  induction a with
  | nil => simpa using hb
  | cons c t ih =>
    simp only [hasFence, Bool.or_eq_false_iff] at ha
    rw [List.cons_append]
    simp only [hasFence, Bool.or_eq_false_iff]
    cases t with
    | nil =>
      have hc : ¬c = '`' := by simpa using hl
      rw [List.nil_append]
      exact ⟨isTriple_false_of_head b hc, hb⟩
    | cons d t' =>
      have hl2 : (d :: t').getLast? ≠ some '`' := by
        rw [List.getLast?_cons_cons] at hl
        exact hl
      refine ⟨?_, ih ha.2 hl2⟩
      cases t' with
      | nil =>
        have hd : ¬d = '`' := by simpa using hl2
        rw [List.cons_append, List.nil_append]
        cases b with
        | nil => simpa using ha.1
        | cons e b' => simp [isTriple, hd]
      | cons e t'' =>
        rw [List.cons_append, List.cons_append]
        rw [isTriple_of_three (t'' ++ b) t'']
        exact ha.1

/-! ## Primitive lemmas: lines and joining -/

theorem joinNl_cons (l : Str) (ls : List Str) :
    joinNl (l :: ls) = l ++ '\n' :: joinNl ls := by
  simp [joinNl]

theorem joinNl_append (xs ys : List Str) :
    joinNl (xs ++ ys) = joinNl xs ++ joinNl ys := by
  simp [joinNl]

theorem linesGo_append_nl :
    ∀ (l : Str) (acc rest : Str), '\n' ∉ l →
    linesGo acc (l ++ '\n' :: rest) =
      stripCR (acc.reverse ++ l) :: linesGo [] rest := by
  intro l
  induction l with
  | nil =>
    intro acc rest _
    simp [linesGo]
  | cons c t ih =>
    intro acc rest h
    have hc : ¬c = '\n' := fun he => h (by simp [he])
    rw [List.cons_append,
      show linesGo acc (c :: (t ++ '\n' :: rest)) =
        linesGo (c :: acc) (t ++ '\n' :: rest) by simp [linesGo, hc]]
    rw [ih (c :: acc) rest (fun hm => h (by simp [hm]))]
    simp

theorem stripCR_no_cr (l : Str) (h : '\r' ∉ l) : stripCR l = l := by
  rw [stripCR, if_neg]
  intro he
  exact h (List.mem_of_mem_getLast? he)

theorem linesOf_joinNl_append :
    ∀ (ls : List Str), (∀ l ∈ ls, '\n' ∉ l ∧ '\r' ∉ l) → ∀ rest : Str,
    linesOf (joinNl ls ++ rest) = ls ++ linesOf rest := by
  intro ls
  induction ls with
  | nil => intro _ rest; simp [joinNl]
  | cons l ls ih =>
    intro h rest
    rw [joinNl_cons, List.append_assoc, List.cons_append]
    show linesGo [] (l ++ '\n' :: (joinNl ls ++ rest)) = _
    rw [linesGo_append_nl l [] (joinNl ls ++ rest) (h l (by simp)).1]
    simp only [List.reverse_nil, List.nil_append]
    rw [stripCR_no_cr l (h l (by simp)).2]
    rw [show linesGo [] (joinNl ls ++ rest) = linesOf (joinNl ls ++ rest) from rfl]
    rw [ih (fun x hx => h x (by simp [hx])) rest]
    simp

theorem linesOf_joinNl (ls : List Str)
    (h : ∀ l ∈ ls, '\n' ∉ l ∧ '\r' ∉ l) : linesOf (joinNl ls) = ls := by
  have := linesOf_joinNl_append ls h []
  simpa [linesOf, linesGo] using this

theorem linesGo_infix :
    ∀ (s acc l : Str), l ∈ linesGo acc s → l <:+: (acc.reverse ++ s) := by
  intro s
  induction s with
  | nil =>
    intro acc l hl
    simp only [linesGo] at hl
    split at hl
    · simp at hl
    · simp only [List.mem_singleton] at hl
      subst hl
      simp
  | cons c rest ih =>
    intro acc l hl
    by_cases hc : c = '\n'
    · rw [show linesGo acc (c :: rest) = stripCR acc.reverse :: linesGo [] rest
        by simp [linesGo, hc]] at hl
      rcases List.mem_cons.mp hl with h1 | h2
      · subst h1
        have hpre : stripCR acc.reverse <+: acc.reverse := by
          rw [stripCR]
          split
          · exact List.dropLast_prefix _
          · exact List.prefix_refl _
        exact hpre.isInfix.trans (List.prefix_append _ _).isInfix
      · have h3 := ih [] l h2
        simp only [List.reverse_nil, List.nil_append] at h3
        obtain ⟨u, v, huv⟩ := h3
        exact ⟨acc.reverse ++ c :: u, v, by simp [← huv]⟩
    · rw [show linesGo acc (c :: rest) = linesGo (c :: acc) rest
        by simp [linesGo, hc]] at hl
      have h3 := ih (c :: acc) l hl
      simpa using h3

theorem linesGo_nl_free :
    ∀ (s acc : Str), '\n' ∉ acc → ∀ l ∈ linesGo acc s, '\n' ∉ l := by
  intro s
  induction s with
  | nil =>
    intro acc hacc l hl
    simp only [linesGo] at hl
    split at hl
    · simp at hl
    · simp only [List.mem_singleton] at hl
      subst hl
      simpa using hacc
  | cons c rest ih =>
    intro acc hacc l hl
    by_cases hc : c = '\n'
    · rw [show linesGo acc (c :: rest) = stripCR acc.reverse :: linesGo [] rest
        by simp [linesGo, hc]] at hl
      rcases List.mem_cons.mp hl with h1 | h2
      · subst h1
        intro hm
        have hpre : stripCR acc.reverse <+: acc.reverse := by
          rw [stripCR]
          split
          · exact List.dropLast_prefix _
          · exact List.prefix_refl _
        exact hacc (by simpa using hpre.sublist.subset hm)
      · exact ih [] (by simp) l h2
    · rw [show linesGo acc (c :: rest) = linesGo (c :: acc) rest
        by simp [linesGo, hc]] at hl
      apply ih (c :: acc) ?_ l hl
      intro hm
      rcases List.mem_cons.mp hm with h1 | h2
      · exact hc h1.symm
      · exact hacc h2

theorem linesOf_lineOk (d : Str) (hf : hasFence d = false) (hcr : crFree d) :
    ∀ l ∈ linesOf d, lineOk l := by
  intro l hl
  have hinf : l <:+: d := by
    have := linesGo_infix d [] l hl
    simpa using this
  refine ⟨linesGo_nl_free d [] (by simp) l hl, ?_, ?_⟩
  · intro hm
    exact hcr (hinf.sublist.subset hm)
  · exact hasFence_false_of_infix hinf hf

theorem hasFence_joinNl (ls : List Str)
    (h : ∀ l ∈ ls, hasFence l = false) : hasFence (joinNl ls) = false := by
  induction ls with
  | nil => rfl
  | cons l ls ih =>
    rw [joinNl_cons]
    apply hasFence_break_right ('\n' :: joinNl ls) (h l (by simp))
    · simp only [hasFence, Bool.or_eq_false_iff]
      refine ⟨?_, ih (fun x hx => h x (by simp [hx]))⟩
      exact isTriple_false_of_head _ (by decide)
    · simp

theorem crFree_joinNl (ls : List Str) (h : ∀ l ∈ ls, '\r' ∉ l) :
    crFree (joinNl ls) := by
  intro hm
  simp only [joinNl] at hm
  rw [List.mem_flatten] at hm
  obtain ⟨x, hx, hmx⟩ := hm
  rw [List.mem_map] at hx
  obtain ⟨l, hl, hlx⟩ := hx
  subst hlx
  rcases List.mem_append.mp hmx with h1 | h2
  · exact h l hl h1
  · simp at h2

/-! ## Field lemmas -/

theorem fieldsOf_infix (line : Str) : ∀ f ∈ fieldsOf line, f <:+: line := by
  intro f hf
  simp only [fieldsOf, List.mem_map] at hf
  obtain ⟨g, hg, hgf⟩ := hf
  subst hgf
  have h1 : g ∈ splitChar '|' ((rustTrim line).drop 1) :=
    splitTerminator_subset '|' _ g hg
  have h2 : g <:+: (rustTrim line).drop 1 := splitChar_infix '|' _ g h1
  have h3 : (rustTrim line).drop 1 <:+ rustTrim line := List.drop_suffix 1 _
  exact ((rustTrim_infix_self g).trans h2).trans
    (h3.isInfix.trans (rustTrim_infix_self line))

theorem fieldsOf_trimmed (line : Str) : ∀ f ∈ fieldsOf line, rustTrim f = f := by
  intro f hf
  simp only [fieldsOf, List.mem_map] at hf
  obtain ⟨g, hg, hgf⟩ := hf
  subst hgf
  exact rustTrim_idem g

theorem fieldsOf_no_pipe (line : Str) : ∀ f ∈ fieldsOf line, '|' ∉ f := by
  intro f hf
  simp only [fieldsOf, List.mem_map] at hf
  obtain ⟨g, hg, hgf⟩ := hf
  subst hgf
  intro hm
  have h1 : g ∈ splitChar '|' ((rustTrim line).drop 1) :=
    splitTerminator_subset '|' _ g hg
  exact splitChar_no_sep '|' _ g h1 ((rustTrim_infix_self g).sublist.subset hm)

theorem fieldsOf_cellOk (line : Str) (h : lineOk line) :
    ∀ f ∈ fieldsOf line, cellOk f := by
  intro f hf
  obtain ⟨hnl, hcr, hfc⟩ := h
  have hinf := fieldsOf_infix line f hf
  exact ⟨fieldsOf_trimmed line f hf, fieldsOf_no_pipe line f hf,
    fun hm => hnl (hinf.sublist.subset hm),
    fun hm => hcr (hinf.sublist.subset hm),
    hasFence_false_of_infix hinf hfc⟩

/-! ## State machine plumbing lemmas -/

theorem stepLine_of_processLine {s : Bool} {st : ParseState} {n : Nat}
    {line : Str} {st1 : ParseState} {add : Str} {w : List Nat}
    (h : processLine s st n line = some (st1, add, w)) :
    stepLine s st n line =
      some (st1, add ++ (if st1.isRegular then line ++ ['\n'] else []), w) := by
  simp [stepLine, h]

theorem runLines_cons (s : Bool) (l : Str) (ls : List Str) (st : ParseState)
    (n : Nat) :
    runLines s (l :: ls) st n =
      match stepLine s st n l with
      | none => none
      | some (st', add, ws) =>
        match runLines s ls st' (n + countCh '\n' add) with
        | none => none
        | some (out, st'', ws') => some (add ++ out, st'', ws ++ ws') := rfl

theorem runLines_append (s : Bool) :
    ∀ (a b : List Str) (st : ParseState) (n : Nat),
    runLines s (a ++ b) st n =
      match runLines s a st n with
      | none => none
      | some (o1, st1, w1) =>
        match runLines s b st1 (n + countCh '\n' o1) with
        | none => none
        | some (o2, st2, w2) => some (o1 ++ o2, st2, w1 ++ w2) := by
  intro a
  induction a with
  | nil =>
    intro b st n
    simp only [List.nil_append, runLines]
    cases h : runLines s b st (n + countCh '\n' []) with
    | none => simpa [countCh] using h
    | some r =>
      obtain ⟨o2, st2, w2⟩ := r
      simp only [countCh, List.count_nil, Nat.add_zero] at h
      simp [h]
  | cons l a ih =>
    intro b st n
    rw [List.cons_append]
    cases h1 : stepLine s st n l with
    | none => simp only [runLines_cons, h1]
    | some r =>
      obtain ⟨st', add, ws⟩ := r
      simp only [runLines_cons, h1]
      rw [ih b st' (n + countCh '\n' add)]
      cases h2 : runLines s a st' (n + countCh '\n' add) with
      | none => simp
      | some r2 =>
        obtain ⟨o1, st1, w1⟩ := r2
        have hcnt : n + countCh '\n' add + countCh '\n' o1 =
            n + countCh '\n' (add ++ o1) := by
          simp only [countCh, List.count_append]
          omega
        simp only [hcnt]
        cases h3 : runLines s b st1 (n + countCh '\n' (add ++ o1)) with
        | none => simp
        | some r3 =>
          obtain ⟨o2, st2, w2⟩ := r3
          simp

/-! ## Renderer shape lemmas -/

theorem foldl_max_le :
    ∀ (xs : List Nat) (a : Nat),
      a ≤ xs.foldl Nat.max a ∧ ∀ x ∈ xs, x ≤ xs.foldl Nat.max a := by
  intro xs
  induction xs with
  | nil => intro a; exact ⟨le_refl a, by simp⟩
  | cons y xs ih =>
    intro a
    obtain ⟨h1, h2⟩ := ih (Nat.max a y)
    refine ⟨le_trans (Nat.le_max_left a y) h1, ?_⟩
    intro x hx
    rcases List.mem_cons.mp hx with hx1 | hx2
    · subst hx1
      exact le_trans (Nat.le_max_right a x) h1
    · exact h2 x hx2

theorem colWidth_spec (c : TableColumn) (h : c.lines ≠ []) :
    (listMax? (c.lines.map strWidth)).map (Nat.max · 1) = some (colWidth c) := by
  cases hl : c.lines with
  | nil => exact absurd hl h
  | cons x xs => simp [listMax?, colWidth, hl]

theorem colWidth_ge (c : TableColumn) (x : Str) (hx : x ∈ c.lines) :
    strWidth x ≤ colWidth c := by
  cases hl : c.lines with
  | nil => rw [hl] at hx; simp at hx
  | cons y ys =>
    rw [hl] at hx
    simp only [colWidth, hl, List.map_cons]
    rcases List.mem_cons.mp hx with h1 | h2
    · subst h1
      exact le_trans (foldl_max_le (ys.map strWidth) (strWidth x)).1
        (Nat.le_max_left _ 1)
    · exact le_trans ((foldl_max_le (ys.map strWidth) (strWidth y)).2
        (strWidth x) (List.mem_map_of_mem _ h2)) (Nat.le_max_left _ 1)

theorem colWidth_pos (c : TableColumn) : 1 ≤ colWidth c := by
  unfold colWidth
  split
  · exact le_refl 1
  · exact Nat.le_max_right _ 1

theorem mapM_some {α β : Type} (f : α → Option β) (g : α → β) :
    ∀ (l : List α), (∀ x ∈ l, f x = some (g x)) →
    l.mapM f = some (l.map g) := by
  intro l
  induction l with
  | nil => intro _; rfl
  | cons x l ih =>
    intro h
    rw [List.mapM_cons, h x (by simp), ih (fun y hy => h y (by simp [hy]))]
    rfl

theorem zip_map_self_mem {α β : Type} (l : List α) (g : α → β) :
    ∀ p ∈ l.zip (l.map g), p.1 ∈ l ∧ p.2 = g p.1 := by
  induction l with
  | nil => intro p hp; simp at hp
  | cons x l ih =>
    intro p hp
    simp only [List.map_cons, List.zip_cons_cons, List.mem_cons] at hp
    rcases hp with hp | hp
    · subst hp; simp
    · obtain ⟨h1, h2⟩ := ih p hp
      exact ⟨by simp [h1], h2⟩

theorem charWidth_space : charWidth ' ' = 1 := by decide

theorem strWidth_cons (c : Char) (s : Str) :
    strWidth (c :: s) = charWidth c + strWidth s := by
  simp [strWidth]

theorem pad_cell_content_eq (c : Str) (w : Nat) (hc : rustTrim c = c)
    (hw : strWidth c ≤ w) : pad_cell_content c w = some (padCell c w) := by
  rw [pad_cell_content, hc]
  have hsw : strWidth (' ' :: c) = 1 + strWidth c := by
    rw [strWidth_cons, charWidth_space]
  rw [if_pos (by rw [hsw]; omega)]
  rw [hsw, padCell]
  have h2 : w + 2 - (1 + strWidth c) = w + 1 - strWidth c := by omega
  rw [h2]

theorem widths_mapM (t : Table) (h : ∀ c ∈ t.columns, c.lines ≠ []) :
    t.columns.mapM (fun c => (listMax? (c.lines.map strWidth)).map (Nat.max · 1)) =
      some (widthsOf t) :=
  mapM_some _ colWidth t.columns (fun c hc => colWidth_spec c (h c hc))

theorem write_output_line_shape (t : Table) (i : Nat)
    (hcell : ∀ c ∈ t.columns, ∃ x, c.lines.get? i = some x ∧
      rustTrim x = x ∧ strWidth x ≤ colWidth c) :
    t.write_output_line (widthsOf t) i =
      some (rowStr (paddedRow t i) ++ ['\n']) := by
  rw [Table.write_output_line]
  have hmap : (t.columns.zip (widthsOf t)).mapM (fun cw => do
      let elem ← cw.1.lines.get? i
      pad_cell_content elem cw.2) = some (paddedRow t i) := by
    rw [show paddedRow t i = (t.columns.zip (widthsOf t)).map
      (fun cw => padCell (cw.1.lines.getD i []) cw.2) from rfl]
    apply mapM_some
    intro cw hcw
    obtain ⟨h1, h2⟩ := zip_map_self_mem t.columns colWidth cw hcw
    obtain ⟨x, hx, hxt, hxw⟩ := hcell cw.1 h1
    rw [hx]
    show pad_cell_content x cw.2 = some (padCell (cw.1.lines.getD i []) cw.2)
    rw [List.getD_eq_getElem?_getD, ← List.get?_eq_getElem?, hx]
    rw [h2]
    exact pad_cell_content_eq x (colWidth cw.1) hxt hxw
  rw [hmap]
  simp [rowStr]

theorem write_subhead_line_shape (t : Table) :
    t.write_subhead_line (widthsOf t) = rowStr (sepPieces t) ++ ['\n'] := by
  rw [Table.write_subhead_line, rowStr, sepPieces, List.map_map]
  have hmap : (t.columns.zip (widthsOf t)).map
      (fun cw => leftBorder cw.1.alignment :: List.replicate cw.2 '-' ++
        [rightBorder cw.1.alignment, '|']) =
      (t.columns.zip (widthsOf t)).map
        ((· ++ ['|']) ∘ fun cw => sepCellStr cw.1.alignment cw.2) := by
    apply List.map_congr_left
    intro cw _
    simp [sepCellStr]
  rw [hmap]

theorem write_output_eq (t : Table) (h : WFT t) :
    t.write_output = some (joinNl (renderLines t)) := by
  obtain ⟨hne, ⟨m, hm1, hm⟩, hnr, hcells⟩ := h
  obtain ⟨c0, rest, hcols⟩ : ∃ c0 rest, t.columns = c0 :: rest := by
    cases hc : t.columns with
    | nil => exact absurd hc hne
    | cons a b => exact ⟨a, b, rfl⟩
  have hlines : ∀ c ∈ t.columns, c.lines ≠ [] := by
    intro c hc he
    have h1 := hm c hc
    rw [he] at h1
    simp at h1
    omega
  have hw := widths_mapM t hlines
  have hcell : ∀ i, i < m → ∀ c ∈ t.columns, ∃ x, c.lines.get? i = some x ∧
      rustTrim x = x ∧ strWidth x ≤ colWidth c := by
    intro i hi c hc
    have hlen : i < c.lines.length := by rw [hm c hc]; exact hi
    refine ⟨c.lines.get ⟨i, hlen⟩, List.get?_eq_get hlen, ?_, ?_⟩
    · exact (hcells c hc _ (List.get_mem c.lines i hlen)).1
    · exact colWidth_ge c _ (List.get_mem c.lines i hlen)
  have hrow : ∀ i, i < m → t.write_output_line (widthsOf t) i =
      some (rowStr (paddedRow t i) ++ ['\n']) :=
    fun i hi => write_output_line_shape t i (hcell i hi)
  have hbody : (List.range' 1 (m - 1)).mapM (t.write_output_line (widthsOf t)) =
      some ((List.range' 1 (m - 1)).map
        (fun i => rowStr (paddedRow t i) ++ ['\n'])) := by
    apply mapM_some
    intro i hi
    apply hrow
    have := List.mem_range'.mp hi
    omega
  have hc0len : c0.lines.length = m := hm c0 (by rw [hcols]; simp)
  have hm0 : numRows t = m := by simp [numRows, hcols, hc0len]
  rw [Table.write_output]
  rw [hw]
  simp only [Option.bind_eq_bind, Option.some_bind]
  rw [hcols, List.head?_cons]
  simp only [Option.some_bind, hc0len, ← hcols]
  rw [hrow 0 (by omega)]
  simp only [Option.some_bind]
  rw [hbody]
  simp only [Option.some_bind]
  rw [write_subhead_line_shape]
  rw [renderLines, hm0]
  unfold joinNl
  simp only [List.map_cons, List.flatten_cons, List.map_map]
  simp only [List.append_assoc]
  rfl

/-! ## Reparsing rendered rows -/

theorem rowStr_getLast (ps : List Str) (h : ps ≠ []) :
    (rowStr ps).getLast? = some '|' := by
  obtain ⟨X, hX⟩ : ∃ X, (ps.map (· ++ ['|'])).flatten = X ++ ['|'] := by
    induction ps with
    | nil => exact absurd rfl h
    | cons p rest ih =>
      cases hr : rest with
      | nil => exact ⟨p, by simp⟩
      | cons q rest' =>
        obtain ⟨X', hX'⟩ := ih (by simp [hr])
        rw [hr] at hX'
        refine ⟨p ++ ['|'] ++ X', ?_⟩
        simp only [List.map_cons, List.flatten_cons] at hX' ⊢
        simp [hr, hX']
  rw [rowStr, hX, show '|' :: (X ++ ['|']) = ('|' :: X) ++ ['|'] by simp]
  exact List.getLast?_concat _

theorem rowStr_trim (ps : List Str) (h : ps ≠ []) :
    rustTrim (rowStr ps) = rowStr ps := by
  apply rustTrim_eq_self_of_ends
  · intro c t hct
    have : c = '|' := by
      rw [rowStr] at hct
      exact (List.cons_eq_cons.mp hct.symm).1
    subst this; decide
  · intro x hx
    rw [rowStr_getLast ps h] at hx
    have hx2 : x = '|' := by
      have := hx
      injection this with h2
      exact h2.symm
    subst hx2; decide

theorem isPipe_rowStr (ps : List Str) (h : ps ≠ []) :
    isPipe (rowStr ps) = true := by
  rw [isPipe, rowStr_trim ps h]
  have h1 : startsWithCh '|' (rowStr ps) = true := by
    rw [startsWithCh, rowStr]; rfl
  have h2 : endsWithCh '|' (rowStr ps) = true := by
    rw [endsWithCh, rowStr_getLast ps h]; rfl
  rw [h1, h2]; rfl

theorem fieldsOf_rowStr (ps : List Str) (h : ps ≠ [])
    (hp : ∀ p ∈ ps, '|' ∉ p) :
    fieldsOf (rowStr ps) = ps.map rustTrim := by
  rw [fieldsOf, rowStr_trim ps h]
  rw [show (rowStr ps).drop 1 = (ps.map (· ++ ['|'])).flatten from rfl]
  rw [splitTerminator]
  rw [splitChar_flatten_concat '|' ps hp]
  rw [if_pos (List.getLast?_concat _)]
  rw [List.dropLast_concat]

/-! ## Parsing a rendered separator cell -/

theorem parseSepCell_sepCellStr (al : TableAlignment) (w : Nat) (hw : 1 ≤ w)
    (hal : al ≠ .Right) : parseSepCell (sepCellStr al w) = some (some al) := by
  have hdec : sepCellStr al w =
      (leftBorder al :: List.replicate w '-') ++ [rightBorder al] := by
    simp [sepCellStr]
  have hone : ∀ c ∈ sepCellStr al w, utf8Len c = 1 := by
    intro c hc
    rw [hdec] at hc
    rcases List.mem_append.mp hc with h1 | h2
    · rcases List.mem_cons.mp h1 with h3 | h4
      · subst h3; cases al <;> decide
      · rw [List.eq_of_mem_replicate h4]; decide
    · rw [List.mem_singleton.mp h2]; cases al <;> decide
  have hlen : byteLen (sepCellStr al w) = w + 2 := by
    rw [byteLen_of_one _ hone, hdec]
    simp
  have hlast : (sepCellStr al w).getLast? = some (rightBorder al) := by
    rw [hdec]; exact List.getLast?_concat _
  have hhead : (sepCellStr al w).head? = some (leftBorder al) := by
    simp [sepCellStr]
  have htrim : rustTrim (sepCellStr al w) = sepCellStr al w := by
    apply rustTrim_eq_self_of_ends
    · intro c t hct
      have hc : c = leftBorder al := by
        rw [hct] at hhead; simpa using hhead
      subst hc; cases al <;> decide
    · intro x hx
      rw [hlast] at hx
      have hx2 : x = rightBorder al := by
        injection hx with h2
        exact h2.symm
      subst hx2; cases al <;> decide
  unfold parseSepCell
  simp only [htrim]
  rw [if_neg (by rw [hlen]; omega)]
  have hdash : ∀ (x : Str), (∀ c ∈ x, c = '-') → x.all (· = '-') = true := by
    intro x hx
    rw [List.all_eq_true]
    intro c hc
    simpa using hx c hc
  cases al with
  | Right => exact absurd rfl hal
  | None =>
    have h1 : startsWithCh ':' (sepCellStr .None w) = false := by
      rw [startsWithCh, hhead]; decide
    have h2 : endsWithCh ':' (sepCellStr .None w) = false := by
      rw [endsWithCh, hlast]; decide
    have h3 : (sepCellStr .None w).all (· = '-') = true := by
      apply hdash
      intro c hc
      rw [hdec] at hc
      rcases List.mem_append.mp hc with ha | hb
      · rcases List.mem_cons.mp ha with h' | h'
        · rw [h']; rfl
        · exact List.eq_of_mem_replicate h'
      · rw [List.mem_singleton.mp hb]; rfl
    simp only [h1, h2, Bool.false_eq_true, if_false, h3, if_true]
  | Left =>
    have h1 : startsWithCh ':' (sepCellStr .Left w) = true := by
      rw [startsWithCh, hhead]; decide
    have h2 : endsWithCh ':' (sepCellStr .Left w) = false := by
      rw [endsWithCh, hlast]; decide
    have hd1 : (sepCellStr .Left w).drop 1 = List.replicate w '-' ++ ['-'] := by
      rw [hdec]; rfl
    have hdl : byteDropLastByte (List.replicate w '-' ++ ['-']) =
        some (List.replicate w '-') := by
      rw [byteDropLastByte_of_one _ (by simp) ?hone2, List.dropLast_concat]
      case hone2 =>
        intro c hc
        rcases List.mem_append.mp hc with ha | hb
        · rw [List.eq_of_mem_replicate ha]; decide
        · rw [List.mem_singleton.mp hb]; decide
    have h3 : (List.replicate w '-').all (· = '-') = true := by
      apply hdash
      intro c hc
      exact List.eq_of_mem_replicate hc
    simp only [h1, h2, if_true, hd1, hdl, Bool.false_eq_true, h3, if_false]
  | Center =>
    have h1 : startsWithCh ':' (sepCellStr .Center w) = true := by
      rw [startsWithCh, hhead]; decide
    have h2 : endsWithCh ':' (sepCellStr .Center w) = true := by
      rw [endsWithCh, hlast]; decide
    have hd1 : (sepCellStr .Center w).drop 1 = List.replicate w '-' ++ [':'] := by
      rw [hdec]; rfl
    have hdl : byteDropLastByte (List.replicate w '-' ++ [':']) =
        some (List.replicate w '-') := by
      rw [byteDropLastByte_of_one _ (by simp) ?hone2, List.dropLast_concat]
      case hone2 =>
        intro c hc
        rcases List.mem_append.mp hc with ha | hb
        · rw [List.eq_of_mem_replicate ha]; decide
        · rw [List.mem_singleton.mp hb]; decide
    have h3 : (List.replicate w '-').all (· = '-') = true := by
      apply hdash
      intro c hc
      exact List.eq_of_mem_replicate hc
    simp only [h1, h2, if_true, hd1, hdl, h3, if_false]

theorem buildColumns_all_some (alF : Str → TableAlignment) :
    ∀ ps : List (Str × Str),
    (∀ p ∈ ps, parseSepCell p.2 = some (some (alF p.2))) →
    buildColumns ps = some (some (ps.map (fun p => ⟨alF p.2, [p.1]⟩))) := by
  intro ps
  induction ps with
  | nil => intro _; rfl
  | cons p rest ih =>
    intro h
    rw [buildColumns, h p (by simp), ih (fun q hq => h q (by simp [hq]))]
    rfl

/-! ## Table reparse helpers -/

theorem zip_map_self {α β : Type} (l : List α) (g : α → β) :
    l.zip (l.map g) = l.map (fun x => (x, g x)) := by
  induction l with
  | nil => rfl
  | cons x l ih => simp [ih]

theorem getD_mem_of_lt (l : List Str) (i : Nat) (h : i < l.length) :
    l.getD i [] ∈ l := by
  rw [List.getD_eq_getElem?_getD, List.getElem?_eq_getElem h]
  simp only [Option.getD_some]
  exact List.getElem_mem h

theorem take_one_of_lt (l : List Str) (h : 0 < l.length) :
    l.take 1 = [l.getD 0 []] := by
  cases l with
  | nil => simp at h
  | cons x t => simp

theorem sepCellStr_trim (al : TableAlignment) (w : Nat) :
    rustTrim (sepCellStr al w) = sepCellStr al w := by
  have hdec : sepCellStr al w =
      (leftBorder al :: List.replicate w '-') ++ [rightBorder al] := by
    simp [sepCellStr]
  apply rustTrim_eq_self_of_ends
  · intro c t hct
    have hc : c = leftBorder al := by
      have : (sepCellStr al w).head? = some (leftBorder al) := by
        simp [sepCellStr]
      rw [hct] at this
      simpa using this
    subst hc; cases al <;> decide
  · intro x hx
    rw [hdec, List.getLast?_concat] at hx
    have hx2 : x = rightBorder al := by
      injection hx with h2
      exact h2.symm
    subst hx2; cases al <;> decide

theorem sepCellStr_no_pipe (al : TableAlignment) (w : Nat) :
    '|' ∉ sepCellStr al w := by
  intro hm
  cases al <;>
    simp [sepCellStr, leftBorder, rightBorder, List.mem_replicate] at hm

/-! ## Reparsing a full rendered table -/

theorem numRows_eq (t : Table) {m : Nat} (hne : t.columns ≠ [])
    (hm : ∀ c ∈ t.columns, c.lines.length = m) : numRows t = m := by
  cases hc : t.columns with
  | nil => exact absurd hc hne
  | cons c0 rest =>
    rw [numRows, hc]
    exact hm c0 (by rw [hc]; simp)

theorem paddedRow_map (t : Table) (i : Nat) :
    paddedRow t i =
      t.columns.map (fun c => padCell (c.lines.getD i []) (colWidth c)) := by
  rw [paddedRow, widthsOf, zip_map_self, List.map_map]
  rfl

theorem sepPieces_map (t : Table) :
    sepPieces t =
      t.columns.map (fun c => sepCellStr c.alignment (colWidth c)) := by
  rw [sepPieces, widthsOf, zip_map_self, List.map_map]
  rfl

theorem fieldsOf_render_row (t : Table) (h : WFT t) (i : Nat)
    (hi : i < numRows t) :
    fieldsOf (rowStr (paddedRow t i)) =
      t.columns.map (fun c => c.lines.getD i []) := by
  obtain ⟨hne, ⟨m, hm1, hm⟩, -, hcells⟩ := h
  have hnum : numRows t = m := numRows_eq t hne hm
  have hpr := paddedRow_map t i
  have hnonempty : paddedRow t i ≠ [] := by
    rw [hpr]
    intro he
    rw [List.map_eq_nil_iff] at he
    exact hne he
  have hcell_mem : ∀ c ∈ t.columns, c.lines.getD i [] ∈ c.lines := by
    intro c hc
    apply getD_mem_of_lt
    rw [hm c hc]
    omega
  have hnp : ∀ p ∈ paddedRow t i, '|' ∉ p := by
    rw [hpr]
    intro p hp
    rw [List.mem_map] at hp
    obtain ⟨c, hc, hpc⟩ := hp
    subst hpc
    intro hmem
    rw [padCell] at hmem
    rcases List.mem_cons.mp hmem with h1 | h2
    · cases h1
    · rcases List.mem_append.mp h2 with h3 | h4
      · exact (hcells c hc _ (hcell_mem c hc)).2.1 h3
      · have := List.eq_of_mem_replicate h4
        cases this
  rw [fieldsOf_rowStr _ hnonempty hnp, hpr, List.map_map]
  apply List.map_congr_left
  intro c hc
  show rustTrim (padCell (c.lines.getD i []) (colWidth c)) = c.lines.getD i []
  rw [padCell]
  exact rustTrim_pad _ _ ((hcells c hc _ (hcell_mem c hc)).1)

theorem fieldsOf_render_sep (t : Table) (hne : t.columns ≠ []) :
    fieldsOf (rowStr (sepPieces t)) = sepPieces t := by
  have hsp := sepPieces_map t
  have hnonempty : sepPieces t ≠ [] := by
    rw [hsp]
    intro he
    rw [List.map_eq_nil_iff] at he
    exact hne he
  have hnp : ∀ p ∈ sepPieces t, '|' ∉ p := by
    rw [hsp]
    intro p hp
    rw [List.mem_map] at hp
    obtain ⟨c, hc, hpc⟩ := hp
    subst hpc
    exact sepCellStr_no_pipe _ _
  rw [fieldsOf_rowStr _ hnonempty hnp]
  rw [hsp, List.map_map]
  apply List.map_congr_left
  intro c hc
  exact sepCellStr_trim _ _

theorem render_row0_header (t : Table) (h : WFT t) :
    process_regular_text (rowStr (paddedRow t 0)) =
      .CheckingHeader (rowStr (paddedRow t 0))
        (t.columns.map (fun c => c.lines.getD 0 [])) := by
  have hne := h.1
  have hm1 : 1 ≤ numRows t := by
    obtain ⟨-, ⟨m, hm1, hm⟩, -, -⟩ := h
    rw [numRows_eq t hne hm]
    exact hm1
  have hprne : paddedRow t 0 ≠ [] := by
    rw [paddedRow_map t 0]
    intro he
    rw [List.map_eq_nil_iff] at he
    exact hne he
  have hfields := fieldsOf_render_row t h 0 (by omega)
  rw [process_regular_text, isPipe_rowStr _ hprne]
  simp only [Bool.not_true, Bool.false_eq_true, if_false, hfields]
  rw [if_neg]
  simp only [List.isEmpty_eq_true, List.map_eq_nil_iff]
  exact hne

theorem buildColumns_render (cols : List TableColumn)
    (hnr : ∀ c ∈ cols, c.alignment ≠ .Right)
    (f : TableColumn → Str) :
    buildColumns (cols.map (fun c => (f c, sepCellStr c.alignment (colWidth c)))) =
      some (some (cols.map (fun c => ⟨c.alignment, [f c]⟩))) := by
  induction cols with
  | nil => rfl
  | cons c rest ih =>
    simp only [List.map_cons, buildColumns]
    rw [parseSepCell_sepCellStr c.alignment (colWidth c) (colWidth_pos c)
      (hnr c (by simp))]
    rw [ih (fun x hx => hnr x (by simp [hx]))]

theorem render_sep_step (t : Table) (h : WFT t) (row0 : Str) :
    process_header (rowStr (sepPieces t)) row0
      (t.columns.map (fun c => c.lines.getD 0 [])) =
      some (.ReadingTable [row0, rowStr (sepPieces t)] (tableTake t 1), []) := by
  obtain ⟨hne, ⟨m, hm1, hm⟩, hnr, hcells⟩ := h
  have hspne : sepPieces t ≠ [] := by
    rw [sepPieces_map]
    intro he
    rw [List.map_eq_nil_iff] at he
    exact hne he
  have hfsep := fieldsOf_render_sep t hne
  rw [process_header, isPipe_rowStr _ hspne]
  simp only [Bool.not_true, Bool.false_eq_true, if_false, hfsep]
  rw [if_neg (by rw [sepPieces_map]; simp)]
  have hzip : (t.columns.map (fun c => c.lines.getD 0 [])).zip (sepPieces t) =
      t.columns.map
        (fun c => (c.lines.getD 0 [], sepCellStr c.alignment (colWidth c))) := by
    rw [sepPieces_map, List.zip_map']
  rw [hzip, buildColumns_render t.columns hnr (fun c => c.lines.getD 0 [])]
  have htake : t.columns.map
      (fun c => (⟨c.alignment, [c.lines.getD 0 []]⟩ : TableColumn)) =
      (tableTake t 1).columns := by
    rw [tableTake]
    apply List.map_congr_left
    intro c hc
    rw [take_one_of_lt c.lines (by rw [hm c hc]; omega)]
  rw [htake]

theorem render_body_step (t : Table) (h : WFT t) (i : Nat) (hi : i < numRows t)
    (src : List Str) (n : Nat) (strict : Bool) :
    process_table (rowStr (paddedRow t i)) n src (tableTake t i) strict =
      some (.ReadingTable (src ++ [rowStr (paddedRow t i)]) (tableTake t (i + 1)),
        [], []) := by
  obtain ⟨hne, ⟨m, hm1, hm⟩, hnr, hcells⟩ := h
  have hprne : paddedRow t i ≠ [] := by
    rw [paddedRow_map t i]
    intro he
    rw [List.map_eq_nil_iff] at he
    exact hne he
  have hfields := fieldsOf_render_row t ⟨hne, ⟨m, hm1, hm⟩, hnr, hcells⟩ i hi
  rw [process_table, isPipe_rowStr _ hprne]
  simp only [Bool.not_true, Bool.false_eq_true, if_false, hfields]
  rw [if_neg (by rw [tableTake]; simp)]
  have hzip : ((tableTake t i).columns).zip
      (t.columns.map (fun c => c.lines.getD i [])) =
      t.columns.map (fun c =>
        ((⟨c.alignment, c.lines.take i⟩ : TableColumn), c.lines.getD i [])) := by
    rw [tableTake, List.zip_map']
  rw [hzip, List.map_map]
  have hcols : t.columns.map
      ((fun cx => (⟨cx.1.alignment, cx.1.lines ++ [cx.2]⟩ : TableColumn)) ∘
        fun c => ((⟨c.alignment, c.lines.take i⟩ : TableColumn), c.lines.getD i [])) =
      (tableTake t (i + 1)).columns := by
    rw [tableTake]
    apply List.map_congr_left
    intro c hc
    show (⟨c.alignment, c.lines.take i ++ [c.lines.getD i []]⟩ : TableColumn) =
      ⟨c.alignment, c.lines.take (i + 1)⟩
    have hlt : i < c.lines.length := by
      rw [hm c hc]
      rw [numRows_eq t hne hm] at hi
      exact hi
    rw [List.take_succ]
    rw [List.getElem?_eq_getElem hlt]
    rw [List.getD_eq_getElem?_getD, List.getElem?_eq_getElem hlt]
    rfl
  rw [hcols]

theorem render_body_fold (t : Table) (h : WFT t) (s : Bool) :
    ∀ (j k : Nat), k + j = numRows t → 1 ≤ k → ∀ (src : List Str) (n : Nat),
    ∃ src2, runLines s ((List.range' k j).map (fun i => rowStr (paddedRow t i)))
      (.ReadingTable src (tableTake t k)) n =
      some ([], .ReadingTable src2 (tableTake t (numRows t)), []) := by
  intro j
  induction j with
  | zero =>
    intro k hk hk1 src n
    refine ⟨src, ?_⟩
    rw [show k = numRows t by omega]
    rfl
  | succ j ih =>
    intro k hk hk1 src n
    rw [show List.range' k (j + 1) = k :: List.range' (k + 1) j from rfl]
    rw [List.map_cons, runLines_cons]
    have hstep : stepLine s (.ReadingTable src (tableTake t k)) n
        (rowStr (paddedRow t k)) =
        some (.ReadingTable (src ++ [rowStr (paddedRow t k)]) (tableTake t (k + 1)),
          [], []) := by
      rw [stepLine]
      rw [show processLine s (.ReadingTable src (tableTake t k)) n
          (rowStr (paddedRow t k)) =
          process_table (rowStr (paddedRow t k)) n src (tableTake t k) s from rfl]
      rw [render_body_step t h k (by omega) src n s]
      rfl
    simp only [hstep]
    obtain ⟨src2, hs2⟩ := ih (k + 1) (by omega) (by omega)
      (src ++ [rowStr (paddedRow t k)]) (n + countCh '\n' [])
    simp only [hs2]
    exact ⟨src2, by simp⟩

theorem renderLines_reparse (t : Table) (h : WFT t) (s : Bool) (n : Nat) :
    ∃ src2, runLines s (renderLines t) .RegularText n =
      some ([], .ReadingTable src2 t, []) := by
  have hm1 : 1 ≤ numRows t := by
    obtain ⟨hne, ⟨m, hm1, hm⟩, -, -⟩ := h
    rw [numRows_eq t hne hm]
    exact hm1
  have htfull : tableTake t (numRows t) = t := by
    obtain ⟨hne, ⟨m, hm1, hm⟩, -, -⟩ := h
    rw [tableTake]
    have : t.columns.map (fun c =>
        (⟨c.alignment, c.lines.take (numRows t)⟩ : TableColumn)) =
        t.columns.map id := by
      apply List.map_congr_left
      intro c hc
      have h2 : c.lines.take (numRows t) = c.lines := by
        apply List.take_of_length_le
        rw [hm c hc, numRows_eq t hne hm]
      rw [h2]
      rfl
    rw [this, List.map_id]
  rw [renderLines, runLines_cons]
  have hstep1 : stepLine s .RegularText n (rowStr (paddedRow t 0)) =
      some (.CheckingHeader (rowStr (paddedRow t 0))
        (t.columns.map (fun c => c.lines.getD 0 [])), [], []) := by
    rw [stepLine]
    rw [show processLine s .RegularText n (rowStr (paddedRow t 0)) =
        some (process_regular_text (rowStr (paddedRow t 0)), [], []) from rfl]
    rw [render_row0_header t h]
    rfl
  simp only [hstep1]
  rw [runLines_cons]
  have hstep2 : stepLine s
      (.CheckingHeader (rowStr (paddedRow t 0))
        (t.columns.map (fun c => c.lines.getD 0 []))) (n + countCh '\n' [])
      (rowStr (sepPieces t)) =
      some (.ReadingTable [rowStr (paddedRow t 0), rowStr (sepPieces t)]
        (tableTake t 1), [], []) := by
    rw [stepLine]
    rw [show processLine s
        (.CheckingHeader (rowStr (paddedRow t 0))
          (t.columns.map (fun c => c.lines.getD 0 [])))
        (n + countCh '\n' []) (rowStr (sepPieces t)) =
        (process_header (rowStr (sepPieces t)) (rowStr (paddedRow t 0))
          (t.columns.map (fun c => c.lines.getD 0 []))).map
          (fun r => (r.1, r.2, [])) from rfl]
    rw [render_sep_step t h (rowStr (paddedRow t 0))]
    rfl
  simp only [hstep2]
  obtain ⟨src2, hs2⟩ := render_body_fold t h s (numRows t - 1) 1 (by omega)
    (by omega) [rowStr (paddedRow t 0), rowStr (sepPieces t)]
    (n + countCh '\n' [] + countCh '\n' [])
  simp only [hs2, htfull]
  exact ⟨src2, by simp⟩

/-! ## Rendered lines are well-behaved -/

theorem hasFence_rowStr (ps : List Str) (hps : ∀ p ∈ ps, hasFence p = false) :
    hasFence (rowStr ps) = false := by
  have hflat : ∀ qs : List Str, (∀ p ∈ qs, hasFence p = false) →
      hasFence ((qs.map (· ++ ['|'])).flatten) = false := by
    intro qs
    induction qs with
    | nil => intro _; rfl
    | cons q rest ih =>
      intro hq
      simp only [List.map_cons, List.flatten_cons]
      apply hasFence_break_left
      · apply hasFence_break_right ['|'] (hq q (by simp)) (by decide)
        decide
      · exact ih (fun p hp => hq p (by simp [hp]))
      · rw [List.getLast?_concat]
        decide
  rw [rowStr, show ('|' :: (ps.map (· ++ ['|'])).flatten) =
    ['|'] ++ (ps.map (· ++ ['|'])).flatten from rfl]
  apply hasFence_break_left _ (by decide) (hflat ps hps)
  decide

theorem replicate_head_ne_bt (k : Nat) (c : Char) (h : c ≠ '`') :
    (List.replicate k c).head? ≠ some '`' := by
  cases k with
  | zero => simp
  | succ k => simpa [List.replicate] using h

theorem padCell_hasFence (c : Str) (w : Nat) (hc : hasFence c = false) :
    hasFence (padCell c w) = false := by
  rw [padCell]
  show hasFence ([' '] ++ (c ++ List.replicate (w + 1 - strWidth c) ' ')) = false
  apply hasFence_break_left _ (by decide) ?hcr
  · decide
  case hcr =>
    apply hasFence_break_right _ hc
    · apply hasFence_no_bt
      intro hm
      have h2 := List.eq_of_mem_replicate hm
      cases h2
    · exact replicate_head_ne_bt _ ' ' (by decide)

theorem sepCellStr_mem (al : TableAlignment) (w : Nat) (x : Char)
    (hx : x ∈ sepCellStr al w) : x = ':' ∨ x = '-' := by
  rw [sepCellStr] at hx
  rcases List.mem_cons.mp hx with h1 | h2
  · cases al <;> simp only [leftBorder] at h1 <;> simp [h1]
  · rcases List.mem_append.mp h2 with h3 | h4
    · exact Or.inr (List.eq_of_mem_replicate h3)
    · have h5 := List.mem_singleton.mp h4
      cases al <;> simp only [rightBorder] at h5 <;> simp [h5]

theorem sepCellStr_hasFence (al : TableAlignment) (w : Nat) :
    hasFence (sepCellStr al w) = false := by
  apply hasFence_no_bt
  intro hm
  rcases sepCellStr_mem al w _ hm with h | h <;> cases h

theorem rowStr_mem (ps : List Str) (x : Char) (hx : x ∈ rowStr ps) :
    x = '|' ∨ ∃ p ∈ ps, x ∈ p := by
  rw [rowStr] at hx
  rcases List.mem_cons.mp hx with h1 | h2
  · exact Or.inl h1
  · rw [List.mem_flatten] at h2
    obtain ⟨q, hq, hxq⟩ := h2
    rw [List.mem_map] at hq
    obtain ⟨p, hp, hpq⟩ := hq
    subst hpq
    rcases List.mem_append.mp hxq with h3 | h4
    · exact Or.inr ⟨p, hp, h3⟩
    · exact Or.inl (List.mem_singleton.mp h4)

theorem padCell_mem (c : Str) (w : Nat) (x : Char) (hx : x ∈ padCell c w) :
    x = ' ' ∨ x ∈ c := by
  rw [padCell] at hx
  rcases List.mem_cons.mp hx with h1 | h2
  · exact Or.inl h1
  · rcases List.mem_append.mp h2 with h3 | h4
    · exact Or.inr h3
    · exact Or.inl (List.eq_of_mem_replicate h4)

theorem renderLines_lineOk (t : Table) (h : WFT t) :
    ∀ l ∈ renderLines t, lineOk l := by
  obtain ⟨hne, ⟨m, hm1, hm⟩, hnr, hcells⟩ := h
  have hnum : numRows t = m := numRows_eq t hne hm
  have hrowOk : ∀ i, i < m → lineOk (rowStr (paddedRow t i)) := by
    intro i hi
    have hcellprops : ∀ p ∈ paddedRow t i, (∃ c ∈ t.columns,
        p = padCell (c.lines.getD i []) (colWidth c) ∧
        c.lines.getD i [] ∈ c.lines) := by
      intro p hp
      rw [paddedRow_map t i] at hp
      rw [List.mem_map] at hp
      obtain ⟨c, hc, hpc⟩ := hp
      refine ⟨c, hc, hpc.symm, getD_mem_of_lt _ _ (by rw [hm c hc]; omega)⟩
    refine ⟨?_, ?_, ?_⟩
    · intro hmem
      rcases rowStr_mem _ _ hmem with h1 | ⟨p, hp, hxp⟩
      · cases h1
      · obtain ⟨c, hc, hpc, hmemc⟩ := hcellprops p hp
        subst hpc
        rcases padCell_mem _ _ _ hxp with h2 | h3
        · cases h2
        · exact (hcells c hc _ hmemc).2.2.1 h3
    · intro hmem
      rcases rowStr_mem _ _ hmem with h1 | ⟨p, hp, hxp⟩
      · cases h1
      · obtain ⟨c, hc, hpc, hmemc⟩ := hcellprops p hp
        subst hpc
        rcases padCell_mem _ _ _ hxp with h2 | h3
        · cases h2
        · exact (hcells c hc _ hmemc).2.2.2.1 h3
    · apply hasFence_rowStr
      intro p hp
      obtain ⟨c, hc, hpc, hmemc⟩ := hcellprops p hp
      subst hpc
      exact padCell_hasFence _ _ (hcells c hc _ hmemc).2.2.2.2
  have hsepOk : lineOk (rowStr (sepPieces t)) := by
    have hmemsep : ∀ x ∈ rowStr (sepPieces t), x = '|' ∨ x = ':' ∨ x = '-' := by
      intro x hx
      rcases rowStr_mem _ _ hx with h1 | ⟨p, hp, hxp⟩
      · exact Or.inl h1
      · rw [sepPieces_map, List.mem_map] at hp
        obtain ⟨c, hc, hpc⟩ := hp
        subst hpc
        exact Or.inr (sepCellStr_mem _ _ _ hxp)
    refine ⟨?_, ?_, ?_⟩
    · intro hmem
      rcases hmemsep _ hmem with h | h | h <;> cases h
    · intro hmem
      rcases hmemsep _ hmem with h | h | h <;> cases h
    · apply hasFence_rowStr
      intro p hp
      rw [sepPieces_map, List.mem_map] at hp
      obtain ⟨c, hc, hpc⟩ := hp
      subst hpc
      exact sepCellStr_hasFence _ _
  intro l hl
  rw [renderLines] at hl
  rcases List.mem_cons.mp hl with h1 | h2
  · subst h1
    exact hrowOk 0 (by omega)
  · rcases List.mem_cons.mp h2 with h3 | h4
    · subst h3
      exact hsepOk
    · rw [List.mem_map] at h4
      obtain ⟨i, hi, hil⟩ := h4
      subst hil
      apply hrowOk
      have := List.mem_range'.mp hi
      rw [hnum] at this
      omega

/-! ## Characterization of the classifier steps -/

theorem prt_cases (line : Str) :
    process_regular_text line = .RegularText ∨
    (isPipe line = true ∧ fieldsOf line ≠ [] ∧
      process_regular_text line = .CheckingHeader line (fieldsOf line)) := by
  unfold process_regular_text
  by_cases h1 : isPipe line
  · by_cases h2 : (fieldsOf line).isEmpty
    · left
      simp [h1, h2]
    · right
      refine ⟨h1, by simpa using h2, by simp [h1, h2]⟩
  · left
    simp [Bool.not_eq_true _ ▸ h1]

theorem prt_checking_inv (line src : Str) (hdrs : List Str)
    (h : process_regular_text line = .CheckingHeader src hdrs) :
    src = line ∧ hdrs = fieldsOf line ∧ fieldsOf line ≠ [] ∧
      isPipe line = true := by
  rcases prt_cases line with h1 | ⟨hp, hne, heq⟩
  · rw [h1] at h
    cases h
  · rw [heq] at h
    injection h with a b
    exact ⟨a.symm, b.symm, hne, hp⟩

theorem process_header_cases (line src : Str) (hdrs : List Str)
    (st1 : ParseState) (add : Str)
    (h : process_header line src hdrs = some (st1, add)) :
    (st1 = .RegularText ∧ add = src ++ ['\n']) ∨
    (∃ cols, isPipe line = true ∧ (fieldsOf line).length = hdrs.length ∧
      buildColumns (hdrs.zip (fieldsOf line)) = some (some cols) ∧
      st1 = .ReadingTable [src, line] ⟨cols⟩ ∧ add = []) := by
  unfold process_header at h
  split at h
  · left
    simp only [Option.some.injEq, Prod.mk.injEq] at h
    exact ⟨h.1.symm, h.2.symm⟩
  · rename_i hpipe
    split at h
    · left
      simp only [Option.some.injEq, Prod.mk.injEq] at h
      exact ⟨h.1.symm, h.2.symm⟩
    · rename_i hlen
      cases hb : buildColumns (hdrs.zip (fieldsOf line)) with
      | none => rw [hb] at h; cases h
      | some o =>
        cases o with
        | none =>
          rw [hb] at h
          left
          simp only [Option.some.injEq, Prod.mk.injEq] at h
          exact ⟨h.1.symm, h.2.symm⟩
        | some cols =>
          rw [hb] at h
          right
          simp only [Option.some.injEq, Prod.mk.injEq] at h
          exact ⟨cols, by simpa using hpipe, not_ne_iff.mp hlen, rfl,
            h.1.symm, h.2.symm⟩

theorem process_table_cases (line : Str) (n : Nat) (src : List Str)
    (t : Table) (strict : Bool) (st1 : ParseState) (add : Str) (w : List Nat)
    (h : process_table line n src t strict = some (st1, add, w)) :
    (isPipe line = false ∧ t.write_output = some add ∧ st1 = .RegularText ∧
      w = []) ∨
    (isPipe line = true ∧ (fieldsOf line).length ≠ t.columns.length ∧
      st1 = .RegularText ∧ add = joinNl src ∧
      w = (if strict then [1 + n] else [])) ∨
    (isPipe line = true ∧ (fieldsOf line).length = t.columns.length ∧
      st1 = .ReadingTable (src ++ [line])
        ⟨(t.columns.zip (fieldsOf line)).map (fun cx =>
          ⟨cx.1.alignment, cx.1.lines ++ [cx.2]⟩)⟩ ∧ add = [] ∧ w = []) := by
  unfold process_table at h
  split at h
  · rename_i hpipe
    left
    cases hw : t.write_output with
    | none => rw [hw] at h; cases h
    | some r =>
      rw [hw] at h
      simp only [Option.map_some', Option.some.injEq, Prod.mk.injEq] at h
      refine ⟨by simpa using hpipe, ?_, h.1.symm, h.2.2.symm⟩
      rw [h.2.1]
  · rename_i hpipe
    split at h
    · rename_i hlen
      right; left
      simp only [Option.some.injEq, Prod.mk.injEq] at h
      exact ⟨by simpa using hpipe, hlen, h.1.symm, h.2.1.symm, h.2.2.symm⟩
    · rename_i hlen
      right; right
      simp only [Option.some.injEq, Prod.mk.injEq] at h
      exact ⟨by simpa using hpipe, not_ne_iff.mp hlen, h.1.symm, h.2.1.symm,
        h.2.2.symm⟩

theorem parseSepCell_ne_right (x : Str) (a : TableAlignment)
    (h : parseSepCell x = some (some a)) : a ≠ .Right := by
  intro ha
  subst ha
  unfold parseSepCell at h
  split at h
  · simp at h
  · by_cases hL : startsWithCh ':' (rustTrim x) = true
    · simp only [hL, if_true] at h
      split at h
      · cases h
      · split at h
        · by_cases hR : endsWithCh ':' (rustTrim x) = true
          · simp [hR] at h
          · simp only [Bool.not_eq_true] at hR
            simp [hR] at h
        · simp at h
    · simp only [Bool.not_eq_true] at hL
      simp only [hL, Bool.false_eq_true, if_false] at h
      split at h
      · rename_i hall
        by_cases hR : endsWithCh ':' (rustTrim x) = true
        · have hgl : (rustTrim x).getLast? = some ':' :=
            of_decide_eq_true hR
          have hmem : ':' ∈ rustTrim x := by
            apply List.mem_of_mem_getLast?
            rw [Option.mem_def]
            exact hgl
          rw [List.all_eq_true] at hall
          have h2 := hall ':' hmem
          simp at h2
        · simp only [Bool.not_eq_true] at hR
          simp [hR] at h
      · simp at h

/-! ## Forward computation lemmas for the machine -/

theorem process_table_render (line : Str) (n : Nat) (src : List Str)
    (t : Table) (strict : Bool) (r : Str) (hp : isPipe line = false)
    (hw : t.write_output = some r) :
    process_table line n src t strict = some (.RegularText, r, []) := by
  unfold process_table
  rw [hp]
  simp [hw]

theorem process_table_broken (line : Str) (n : Nat) (src : List Str)
    (t : Table) (strict : Bool) (hp : isPipe line = true)
    (hlen : (fieldsOf line).length ≠ t.columns.length) :
    process_table line n src t strict =
      some (.RegularText, joinNl src, if strict then [1 + n] else []) := by
  unfold process_table
  rw [hp]
  simp only [Bool.not_true, Bool.false_eq_true, if_false]
  rw [if_pos hlen]

theorem process_table_append (line : Str) (n : Nat) (src : List Str)
    (t : Table) (strict : Bool) (hp : isPipe line = true)
    (hlen : (fieldsOf line).length = t.columns.length) :
    process_table line n src t strict =
      some (.ReadingTable (src ++ [line])
        ⟨(t.columns.zip (fieldsOf line)).map (fun cx =>
          ⟨cx.1.alignment, cx.1.lines ++ [cx.2]⟩)⟩, [], []) := by
  unfold process_table
  rw [hp]
  simp only [Bool.not_true, Bool.false_eq_true, if_false]
  rw [if_neg (by omega)]

theorem buildColumns_shape :
    ∀ (ps : List (Str × Str)) (cols : List TableColumn),
      buildColumns ps = some (some cols) →
      cols.length = ps.length ∧
      ∀ c ∈ cols, ∃ p ∈ ps, ∃ a, parseSepCell p.2 = some (some a) ∧
        c = ⟨a, [p.1]⟩ := by
  intro ps
  induction ps with
  | nil =>
    intro cols h
    simp only [buildColumns, Option.some.injEq] at h
    subst h
    exact ⟨rfl, by simp⟩
  | cons p rest ih =>
    intro cols h
    unfold buildColumns at h
    cases hp : parseSepCell p.2 with
    | none => rw [hp] at h; cases h
    | some o =>
      cases o with
      | none => rw [hp] at h; cases h
      | some al =>
        rw [hp] at h
        cases hb : buildColumns rest with
        | none => rw [hb] at h; cases h
        | some o2 =>
          cases o2 with
          | none => rw [hb] at h; cases h
          | some cols' =>
            rw [hb] at h
            simp only [Option.some.injEq] at h
            subst h
            obtain ⟨hlen, hmem⟩ := ih cols' hb
            constructor
            · simp [hlen]
            · intro c hc
              rcases List.mem_cons.mp hc with h1 | h2
              · exact ⟨p, by simp, al, hp, h1⟩
              · obtain ⟨q, hq, a, ha, hca⟩ := hmem c h2
                exact ⟨q, by simp [hq], a, ha, hca⟩

/-! ## Preservation of the state invariant -/

theorem goodSt_after_header (line src : Str) (hdrs : List Str)
    (cols : List TableColumn) (hokl : lineOk line) (hoksrc : lineOk src)
    (hprt : process_regular_text src = .CheckingHeader src hdrs)
    (hps : process_header line src hdrs =
      some (.ReadingTable [src, line] ⟨cols⟩, [])) :
    GoodSt (.ReadingTable [src, line] ⟨cols⟩) := by
  obtain ⟨-, hh, hhne, -⟩ := prt_checking_inv src src hdrs hprt
  have hhdrs_ne : hdrs ≠ [] := by rw [hh]; exact hhne
  obtain hcase := process_header_cases line src hdrs _ _ hps
  rcases hcase with ⟨h1, -⟩ | ⟨cols', hp, hlen, hb, hst, -⟩
  · cases h1
  · have hcols : cols = cols' := by
      injection hst with a b
      injection b with b2
    subst hcols
    have hziplen : (hdrs.zip (fieldsOf line)).length = hdrs.length := by
      rw [List.length_zip, hlen, Nat.min_self]
    obtain ⟨hclen, hcshape⟩ := buildColumns_shape _ _ hb
    refine ⟨?_, ?_, ?_⟩
    · intro l hl
      rcases List.mem_cons.mp hl with h2 | h3
      · subst h2; exact hoksrc
      · rw [List.mem_singleton.mp h3]; exact hokl
    · refine ⟨?_, ⟨1, le_refl 1, buildColumns_lines_len _ _ hb⟩, ?_, ?_⟩
      · show cols ≠ []
        intro he
        rw [he] at hclen
        simp only [List.length_nil] at hclen
        rw [hziplen] at hclen
        exact hhdrs_ne (List.length_eq_zero.mp hclen.symm)
      · intro c hc
        obtain ⟨q, hq, a, ha, hca⟩ := hcshape c hc
        rw [hca]
        exact parseSepCell_ne_right _ _ ha
      · intro c hc x hx
        obtain ⟨q, hq, a, ha, hca⟩ := hcshape c hc
        rw [hca] at hx
        simp only [List.mem_singleton] at hx
        subst hx
        have hq1 : q.1 ∈ hdrs := (List.of_mem_zip hq).1
        rw [hh] at hq1
        exact fieldsOf_cellOk src hoksrc _ hq1
    · intro s n
      rw [runLines_cons]
      have hstep1 : stepLine s .RegularText n src =
          some (.CheckingHeader src hdrs, [], []) := by
        rw [stepLine, show processLine s .RegularText n src =
          some (process_regular_text src, [], []) from rfl, hprt]
        rfl
      simp only [hstep1]
      rw [runLines_cons]
      have hstep2 : stepLine s (.CheckingHeader src hdrs)
          (n + countCh '\n' []) line =
          some (.ReadingTable [src, line] ⟨cols⟩, [], []) := by
        rw [stepLine, show processLine s (.CheckingHeader src hdrs)
          (n + countCh '\n' []) line =
          (process_header line src hdrs).map (fun r => (r.1, r.2, []))
          from rfl, hps]
        rfl
      simp only [hstep2]
      rfl

theorem goodSt_after_row (src : List Str) (t : Table) (line : Str)
    (hok : lineOk line) (hgs : GoodSt (.ReadingTable src t))
    (hp : isPipe line = true)
    (hlen : (fieldsOf line).length = t.columns.length) :
    GoodSt (.ReadingTable (src ++ [line])
      ⟨(t.columns.zip (fieldsOf line)).map (fun cx =>
        ⟨cx.1.alignment, cx.1.lines ++ [cx.2]⟩)⟩) := by
  obtain ⟨hsrcok, ⟨hne, ⟨m, hm1, hm⟩, hnr, hcells⟩, hreplay⟩ := hgs
  have hzipmem : ∀ cx ∈ t.columns.zip (fieldsOf line),
      cx.1 ∈ t.columns ∧ cx.2 ∈ fieldsOf line := fun cx hcx =>
    List.of_mem_zip hcx
  refine ⟨?_, ⟨?_, ⟨m + 1, by omega, ?_⟩, ?_, ?_⟩, ?_⟩
  · intro l hl
    rcases List.mem_append.mp hl with h1 | h2
    · exact hsrcok l h1
    · rw [List.mem_singleton.mp h2]; exact hok
  · show List.map _ _ ≠ []
    intro he
    rw [List.map_eq_nil_iff] at he
    have := List.length_zip t.columns (fieldsOf line)
    rw [he] at this
    simp only [List.length_nil] at this
    rw [hlen, Nat.min_self] at this
    have hne2 : t.columns.length ≠ 0 := fun h0 =>
      hne (List.length_eq_zero.mp h0)
    omega
  · intro c hc
    rw [List.mem_map] at hc
    obtain ⟨cx, hcx, hceq⟩ := hc
    subst hceq
    simp only [List.length_append, List.length_singleton]
    rw [hm cx.1 (hzipmem cx hcx).1]
  · intro c hc
    rw [List.mem_map] at hc
    obtain ⟨cx, hcx, hceq⟩ := hc
    subst hceq
    exact hnr cx.1 (hzipmem cx hcx).1
  · intro c hc x hx
    rw [List.mem_map] at hc
    obtain ⟨cx, hcx, hceq⟩ := hc
    subst hceq
    simp only at hx
    rcases List.mem_append.mp hx with h1 | h2
    · exact hcells cx.1 (hzipmem cx hcx).1 x h1
    · rw [List.mem_singleton.mp h2]
      exact fieldsOf_cellOk line hok _ (hzipmem cx hcx).2
  · intro s n
    rw [runLines_append]
    simp only [hreplay s n]
    rw [runLines_cons]
    have hstep : stepLine s (.ReadingTable src t) (n + countCh '\n' []) line =
        some (.ReadingTable (src ++ [line])
          ⟨(t.columns.zip (fieldsOf line)).map (fun cx =>
            ⟨cx.1.alignment, cx.1.lines ++ [cx.2]⟩)⟩, [], []) := by
      rw [stepLine, show processLine s (.ReadingTable src t)
        (n + countCh '\n' []) line =
        process_table line (n + countCh '\n' []) src t s from rfl,
        process_table_append line _ src t s hp hlen]
      rfl
    simp only [hstep]
    rfl

/-! ## Replay plumbing -/

theorem stepLine_prt (s : Bool) (n : Nat) (l : Str) :
    stepLine s .RegularText n l =
      some (process_regular_text l,
        if (process_regular_text l).isRegular then l ++ ['\n'] else [], []) := by
  rw [stepLine_of_processLine (show processLine s .RegularText n l =
    some (process_regular_text l, [], []) from rfl)]
  rw [List.nil_append]

theorem stepLine_hdr {l src : Str} {hdrs : List Str} {sth : ParseState}
    {addh : Str} (s : Bool) (n : Nat)
    (h : process_header l src hdrs = some (sth, addh)) :
    stepLine s (.CheckingHeader src hdrs) n l =
      some (sth, addh ++ (if sth.isRegular then l ++ ['\n'] else []), []) := by
  apply stepLine_of_processLine
  show (process_header l src hdrs).map _ = _
  rw [h]
  rfl

theorem stepLine_tbl {l : Str} {src : List Str} {t : Table}
    {st1 : ParseState} {add : Str} {w : List Nat} {s : Bool} {n : Nat}
    (h : process_table l n src t s = some (st1, add, w)) :
    stepLine s (.ReadingTable src t) n l =
      some (st1, add ++ (if st1.isRegular then l ++ ['\n'] else []), w) :=
  stepLine_of_processLine h

theorem runLines_cons_of {s : Bool} {l : Str} {ls : List Str}
    {st : ParseState} {n : Nat} {st1 : ParseState} {add : Str} {w : List Nat}
    {o2 : Str} {st2 : ParseState} {w2 : List Nat}
    (h1 : stepLine s st n l = some (st1, add, w))
    (h2 : runLines s ls st1 (n + countCh '\n' add) = some (o2, st2, w2)) :
    runLines s (l :: ls) st n = some (add ++ o2, st2, w ++ w2) := by
  rw [runLines_cons]
  simp only [h1, h2]

theorem runLines_append_of {s : Bool} {a b : List Str} {st : ParseState}
    {n : Nat} {o1 : Str} {st1 : ParseState} {w1 : List Nat} {o2 : Str}
    {st2 : ParseState} {w2 : List Nat}
    (h1 : runLines s a st n = some (o1, st1, w1))
    (h2 : runLines s b st1 (n + countCh '\n' o1) = some (o2, st2, w2)) :
    runLines s (a ++ b) st n = some (o1 ++ o2, st2, w1 ++ w2) := by
  rw [runLines_append]
  simp only [h1, h2]

theorem runLines_cons_inv {s : Bool} {l : Str} {ls : List Str}
    {st : ParseState} {n : Nat} {O : Str} {stF : ParseState} {W : List Nat}
    (h : runLines s (l :: ls) st n = some (O, stF, W)) :
    ∃ st1 add w o2 w2, stepLine s st n l = some (st1, add, w) ∧
      runLines s ls st1 (n + countCh '\n' add) = some (o2, stF, w2) ∧
      O = add ++ o2 ∧ W = w ++ w2 := by
  rw [runLines_cons] at h
  cases h1 : stepLine s st n l with
  | none => simp only [h1] at h; cases h
  | some r =>
    obtain ⟨st1, add, w⟩ := r
    simp only [h1] at h
    cases h2 : runLines s ls st1 (n + countCh '\n' add) with
    | none => simp only [h2] at h; cases h
    | some r2 =>
      obtain ⟨o2, st2, w2⟩ := r2
      simp only [h2, Option.some.injEq, Prod.mk.injEq] at h
      obtain ⟨hO, hst, hW⟩ := h
      exact ⟨st1, add, w, o2, w2, rfl, hst ▸ h2, hO.symm, hW.symm⟩

/-- Master replay invariant: from a good state, a run over well-behaved
lines emits text that is `joinNl` of a list of well-behaved lines, lands in
a good state, and re-running the machine on the emitted lines from
`RegularText` re-emits exactly the same text and returns to `RegularText`. -/
theorem runLines_selfReplay (s : Bool) :
    ∀ (L : List Str) (st : ParseState) (n : Nat) (O : Str)
      (stF : ParseState) (W : List Nat),
      GoodSt st → (∀ l ∈ L, lineOk l) →
      runLines s L st n = some (O, stF, W) →
      GoodSt stF ∧ ∃ ls, O = joinNl ls ∧ (∀ l ∈ ls, lineOk l) ∧
        ∀ (s2 : Bool) (n2 : Nat), ∃ w2,
          runLines s2 ls .RegularText n2 = some (O, .RegularText, w2) := by
  intro L
  induction L with
  | nil =>
    intro st n O stF W hg _ hrun
    rw [show runLines s [] st n = some ([], st, []) from rfl] at hrun
    simp only [Option.some.injEq, Prod.mk.injEq] at hrun
    obtain ⟨hO, hst, hW⟩ := hrun
    subst hO
    subst hst
    exact ⟨hg, [], rfl, by simp, fun s2 n2 => ⟨[], rfl⟩⟩
  | cons l L ih =>
    intro st n O stF W hg hok hrun
    have hokl : lineOk l := hok l (List.mem_cons_self l L)
    have hokL : ∀ x ∈ L, lineOk x := fun x hx => hok x (List.mem_cons_of_mem l hx)
    obtain ⟨st1, add, w, o2, w2, hstep, hrest, hO, hW⟩ := runLines_cons_inv hrun
    cases st with
    | RegularText =>
      rcases prt_cases l with hprt | ⟨hp, hne, hprt⟩
      · -- the line stays regular text and is echoed verbatim
        have hstepEq : ∀ (s2 : Bool) (n2 : Nat), stepLine s2 .RegularText n2 l =
            some (.RegularText, l ++ ['\n'], []) := by
          intro s2 n2
          rw [stepLine_prt, hprt]
          simp [ParseState.isRegular]
        rw [hstepEq s n] at hstep
        simp only [Option.some.injEq, Prod.mk.injEq] at hstep
        obtain ⟨h1a, h1b, h1c⟩ := hstep
        subst h1a
        subst h1b
        subst h1c
        obtain ⟨hgF, ls, hOls, hlsok, hrep⟩ :=
          ih .RegularText _ o2 stF w2 trivial hokL hrest
        refine ⟨hgF, l :: ls, ?_, ?_, ?_⟩
        · rw [hO, hOls, joinNl_cons]
          simp
        · intro x hx
          rcases List.mem_cons.mp hx with h1 | h2
          · subst h1; exact hokl
          · exact hlsok x h2
        · intro s2 n2
          obtain ⟨w3, hr⟩ := hrep s2 (n2 + countCh '\n' (l ++ ['\n']))
          rw [hOls] at hr
          rw [hO, hOls]
          exact ⟨_, runLines_cons_of (hstepEq s2 n2) hr⟩
      · -- the line is a pipe line: becomes a candidate header, nothing emitted
        have hstepEq : ∀ (s2 : Bool) (n2 : Nat), stepLine s2 .RegularText n2 l =
            some (.CheckingHeader l (fieldsOf l), [], []) := by
          intro s2 n2
          rw [stepLine_prt, hprt]
          simp [ParseState.isRegular]
        rw [hstepEq s n] at hstep
        simp only [Option.some.injEq, Prod.mk.injEq] at hstep
        obtain ⟨h1a, h1b, h1c⟩ := hstep
        subst h1a
        subst h1b
        subst h1c
        rw [List.nil_append] at hO
        subst hO
        exact ih (.CheckingHeader l (fieldsOf l)) _ O stF w2 ⟨hokl, hprt⟩
          hokL hrest
    | CheckingHeader src hdrs =>
      obtain ⟨hoksrc, hprt⟩ := hg
      cases hph : process_header l src hdrs with
      | none =>
        have hnone : stepLine s (.CheckingHeader src hdrs) n l = none := by
          rw [stepLine, show processLine s (.CheckingHeader src hdrs) n l =
            (process_header l src hdrs).map (fun r => (r.1, r.2, [])) from rfl,
            hph]
          rfl
        rw [hnone] at hstep
        cases hstep
      | some r =>
        obtain ⟨sth, addh⟩ := r
        rcases process_header_cases l src hdrs sth addh hph with
          ⟨hst1, hadd1⟩ | ⟨cols, hp, hlen, hb, hst1, hadd1⟩
        · -- header rejected: buffered line and current line both go out verbatim
          subst hst1
          subst hadd1
          have hstepEq : ∀ (s2 : Bool) (n2 : Nat),
              stepLine s2 (.CheckingHeader src hdrs) n2 l =
                some (.RegularText, (src ++ ['\n']) ++ (l ++ ['\n']), []) := by
            intro s2 n2
            rw [stepLine_hdr s2 n2 hph]
            simp [ParseState.isRegular]
          rw [hstepEq s n] at hstep
          simp only [Option.some.injEq, Prod.mk.injEq] at hstep
          obtain ⟨h1a, h1b, h1c⟩ := hstep
          subst h1a
          subst h1b
          subst h1c
          obtain ⟨hgF, ls, hOls, hlsok, hrep⟩ :=
            ih .RegularText _ o2 stF w2 trivial hokL hrest
          have hsrcStep : ∀ (s2 : Bool) (n2 : Nat),
              stepLine s2 .RegularText n2 src =
                some (.CheckingHeader src hdrs, [], []) := by
            intro s2 n2
            rw [stepLine_prt, hprt]
            simp [ParseState.isRegular]
          refine ⟨hgF, src :: l :: ls, ?_, ?_, ?_⟩
          · rw [hO, hOls, joinNl_cons, joinNl_cons]
            simp
          · intro x hx
            rcases List.mem_cons.mp hx with h1 | h2
            · subst h1; exact hoksrc
            rcases List.mem_cons.mp h2 with h3 | h4
            · subst h3; exact hokl
            · exact hlsok x h4
          · intro s2 n2
            obtain ⟨w3, hr⟩ := hrep s2 ((n2 + countCh '\n' ([] : Str)) +
              countCh '\n' ((src ++ ['\n']) ++ (l ++ ['\n'])))
            rw [hOls] at hr
            have hfull := runLines_cons_of (hsrcStep s2 n2)
              (runLines_cons_of (hstepEq s2 (n2 + countCh '\n' ([] : Str))) hr)
            rw [hO, hOls]
            exact ⟨_, hfull⟩
        · -- header confirmed: table begins, nothing emitted
          subst hst1
          subst hadd1
          have hstepEq : ∀ (s2 : Bool) (n2 : Nat),
              stepLine s2 (.CheckingHeader src hdrs) n2 l =
                some (.ReadingTable [src, l] ⟨cols⟩, [], []) := by
            intro s2 n2
            rw [stepLine_hdr s2 n2 hph]
            simp [ParseState.isRegular]
          rw [hstepEq s n] at hstep
          simp only [Option.some.injEq, Prod.mk.injEq] at hstep
          obtain ⟨h1a, h1b, h1c⟩ := hstep
          subst h1a
          subst h1b
          subst h1c
          rw [List.nil_append] at hO
          subst hO
          exact ih _ _ O stF w2
            (goodSt_after_header l src hdrs cols hokl hoksrc hprt hph) hokL hrest
    | ReadingTable src t =>
      obtain ⟨hsrcok, hwft, hself⟩ := hg
      by_cases hp : isPipe l = true
      · by_cases hlen : (fieldsOf l).length = t.columns.length
        · -- row appended, nothing emitted
          have hstepEq : ∀ (s2 : Bool) (n2 : Nat),
              stepLine s2 (.ReadingTable src t) n2 l =
                some (.ReadingTable (src ++ [l])
                  ⟨(t.columns.zip (fieldsOf l)).map (fun cx =>
                    ⟨cx.1.alignment, cx.1.lines ++ [cx.2]⟩)⟩, [], []) := by
            intro s2 n2
            rw [stepLine_tbl (process_table_append l n2 src t s2 hp hlen)]
            simp [ParseState.isRegular]
          rw [hstepEq s n] at hstep
          simp only [Option.some.injEq, Prod.mk.injEq] at hstep
          obtain ⟨h1a, h1b, h1c⟩ := hstep
          subst h1a
          subst h1b
          subst h1c
          rw [List.nil_append] at hO
          subst hO
          exact ih _ _ O stF w2
            (goodSt_after_row src t l hokl ⟨hsrcok, hwft, hself⟩ hp hlen)
            hokL hrest
        · -- column-count mismatch: buffered source flushed verbatim, line echoed
          have hstepEq : ∀ (s2 : Bool) (n2 : Nat),
              stepLine s2 (.ReadingTable src t) n2 l =
                some (.RegularText, joinNl src ++ (l ++ ['\n']),
                  if s2 then [1 + n2] else []) := by
            intro s2 n2
            rw [stepLine_tbl (process_table_broken l n2 src t s2 hp hlen)]
            simp [ParseState.isRegular]
          rw [hstepEq s n] at hstep
          simp only [Option.some.injEq, Prod.mk.injEq] at hstep
          obtain ⟨h1a, h1b, h1c⟩ := hstep
          subst h1a
          subst h1b
          subst h1c
          obtain ⟨hgF, ls, hOls, hlsok, hrep⟩ :=
            ih .RegularText _ o2 stF w2 trivial hokL hrest
          refine ⟨hgF, src ++ l :: ls, ?_, ?_, ?_⟩
          · rw [hO, hOls, joinNl_append, joinNl_cons]
            simp
          · intro x hx
            rcases List.mem_append.mp hx with h1 | h2
            · exact hsrcok x h1
            rcases List.mem_cons.mp h2 with h3 | h4
            · subst h3; exact hokl
            · exact hlsok x h4
          · intro s2 n2
            obtain ⟨w3, hr⟩ := hrep s2 ((n2 + countCh '\n' ([] : Str)) +
              countCh '\n' (joinNl src ++ (l ++ ['\n'])))
            rw [hOls] at hr
            have hfull := runLines_append_of (hself s2 n2)
              (runLines_cons_of (hstepEq s2 (n2 + countCh '\n' ([] : Str))) hr)
            rw [hO, hOls]
            exact ⟨_, hfull⟩
      · -- non-pipe line: the table renders, then the line is echoed
        have hp2 : isPipe l = false := by simpa using hp
        have hwo : t.write_output = some (joinNl (renderLines t)) :=
          write_output_eq t hwft
        have hstepEq : ∀ (s2 : Bool) (n2 : Nat) (src2 : List Str),
            stepLine s2 (.ReadingTable src2 t) n2 l =
              some (.RegularText, joinNl (renderLines t) ++ (l ++ ['\n']),
                []) := by
          intro s2 n2 src2
          rw [stepLine_tbl (process_table_render l n2 src2 t s2 _ hp2 hwo)]
          simp [ParseState.isRegular]
        rw [hstepEq s n src] at hstep
        simp only [Option.some.injEq, Prod.mk.injEq] at hstep
        obtain ⟨h1a, h1b, h1c⟩ := hstep
        subst h1a
        subst h1b
        subst h1c
        obtain ⟨hgF, ls, hOls, hlsok, hrep⟩ :=
          ih .RegularText _ o2 stF w2 trivial hokL hrest
        refine ⟨hgF, renderLines t ++ l :: ls, ?_, ?_, ?_⟩
        · rw [hO, hOls, joinNl_append, joinNl_cons]
          simp
        · intro x hx
          rcases List.mem_append.mp hx with h1 | h2
          · exact renderLines_lineOk t hwft x h1
          rcases List.mem_cons.mp h2 with h3 | h4
          · subst h3; exact hokl
          · exact hlsok x h4
        · intro s2 n2
          obtain ⟨src2, hpr⟩ := renderLines_reparse t hwft s2 n2
          obtain ⟨w3, hr⟩ := hrep s2 ((n2 + countCh '\n' ([] : Str)) +
            countCh '\n' (joinNl (renderLines t) ++ (l ++ ['\n'])))
          rw [hOls] at hr
          have hfull := runLines_append_of hpr
            (runLines_cons_of (hstepEq s2 (n2 + countCh '\n' ([] : Str)) src2) hr)
          rw [hO, hOls]
          exact ⟨_, hfull⟩

/-! ## Idempotence on fence-free, CR-free input -/

theorem formatText_build (dd : Str) (s : Bool) (hf : hasFence dd = false)
    (o2 : Str) (st2 : ParseState) (w2 : List Nat) (F2 : Str)
    (hrun : runLines s (linesOf dd) .RegularText 0 = some (o2, st2, w2))
    (hfl : flushOf st2 = some F2) :
    formatText dd s = some (o2 ++ F2) := by
  have hfc : format_chunk s dd .RegularText = some (o2, st2, w2) := hrun
  have hcg : goChunks s [dd] false .RegularText =
      some (o2 ++ [], st2, w2 ++ []) := by
    rw [show ([dd] : List Str) = dd :: [] from rfl, goChunks]
    simp only [Bool.false_eq_true, if_false, hfc, goChunks]
  unfold formatText format_content formatCore
  rw [splitOnFence_no_fence dd hf]
  simp only [hcg, Option.bind_eq_bind, Option.some_bind, hfl,
    Option.map_some', List.append_nil]

theorem formatText_no_fence (d : Str) (s : Bool) (hf : hasFence d = false)
    (o : Str) (h : formatText d s = some o) :
    ∃ o1 st1 w1 F,
      runLines s (linesOf d) .RegularText 0 = some (o1, st1, w1) ∧
      flushOf st1 = some F ∧ o = o1 ++ F := by
  unfold formatText format_content formatCore at h
  rw [splitOnFence_no_fence d hf] at h
  cases hrun : runLines s (linesOf d) .RegularText 0 with
  | none =>
    have hfc : format_chunk s d .RegularText = none := hrun
    have hcg : goChunks s [d] false .RegularText = none := by
      rw [show ([d] : List Str) = d :: [] from rfl, goChunks]
      simp only [Bool.false_eq_true, if_false, hfc]
    rw [hcg] at h
    simp at h
  | some r =>
    obtain ⟨o1, st1, w1⟩ := r
    have hfc : format_chunk s d .RegularText = some (o1, st1, w1) := hrun
    have hcg : goChunks s [d] false .RegularText =
        some (o1 ++ [], st1, w1 ++ []) := by
      rw [show ([d] : List Str) = d :: [] from rfl, goChunks]
      simp only [Bool.false_eq_true, if_false, hfc, goChunks]
    rw [hcg] at h
    simp only [Option.bind_eq_bind, Option.some_bind] at h
    cases hfl : flushOf st1 with
    | none =>
      rw [hfl] at h
      simp at h
    | some F =>
      rw [hfl] at h
      simp only [Option.bind_eq_bind, Option.some_bind, Option.map_some',
        Option.some.injEq, List.append_nil] at h
      exact ⟨o1, st1, w1, F, rfl, hfl, h.symm⟩

/-- C5: the claim asserts idempotence of formatting on every input; that is
false in general (see the counterexample on four backticks).  Amended: on
any input free of triple-backtick fences and carriage returns, if
formatting succeeds then formatting the output reproduces it exactly. -/
theorem claim_c5_amended (d : Str) (s : Bool) (o : Str)
    (hf : hasFence d = false) (hcr : crFree d)
    (h : formatText d s = some o) :
    formatText o s = some o := by
  obtain ⟨o1, st1, w1, F, hrun1, hfl, ho⟩ := formatText_no_fence d s hf o h
  obtain ⟨hgF, ls, hOls, hlsok, hrep⟩ :=
    runLines_selfReplay s (linesOf d) .RegularText 0 o1 st1 w1 trivial
      (linesOf_lineOk d hf hcr) hrun1
  cases st1 with
  | RegularText =>
    have hF : F = [] := by
      rw [show flushOf .RegularText = some ([] : Str) from rfl] at hfl
      exact (Option.some.inj hfl).symm
    subst hF
    have ho2 : o = joinNl ls := by rw [ho, hOls]; simp
    have hfo : hasFence o = false := by
      rw [ho2]; exact hasFence_joinNl ls (fun l hl => (hlsok l hl).2.2)
    have hlo : linesOf o = ls := by
      rw [ho2]
      exact linesOf_joinNl ls (fun l hl => ⟨(hlsok l hl).1, (hlsok l hl).2.1⟩)
    obtain ⟨w3, hrw⟩ := hrep s 0
    have hbuild := formatText_build o s hfo o1 .RegularText w3 []
      (by rw [hlo]; exact hrw) rfl
    rw [hbuild, ho]
  | CheckingHeader src hdrs =>
    obtain ⟨hoksrc, hprtsrc⟩ := hgF
    have hF : F = src ++ ['\n'] := by
      rw [show flushOf (.CheckingHeader src hdrs) = some (src ++ ['\n'])
        from rfl] at hfl
      exact (Option.some.inj hfl).symm
    subst hF
    have hls2ok : ∀ l ∈ ls ++ [src], lineOk l := by
      intro x hx
      rcases List.mem_append.mp hx with h1 | h2
      · exact hlsok x h1
      · rw [List.mem_singleton.mp h2]; exact hoksrc
    have ho2 : o = joinNl (ls ++ [src]) := by
      rw [ho, hOls, joinNl_append, joinNl_cons]
      simp [joinNl]
    have hfo : hasFence o = false := by
      rw [ho2]; exact hasFence_joinNl _ (fun l hl => (hls2ok l hl).2.2)
    have hlo : linesOf o = ls ++ [src] := by
      rw [ho2]
      exact linesOf_joinNl _ (fun l hl =>
        ⟨(hls2ok l hl).1, (hls2ok l hl).2.1⟩)
    obtain ⟨w3, hrw⟩ := hrep s 0
    have hsrcStep : stepLine s .RegularText (0 + countCh '\n' o1) src =
        some (.CheckingHeader src hdrs, [], []) := by
      rw [stepLine_prt, hprtsrc]
      simp [ParseState.isRegular]
    have htail : runLines s [src] .RegularText (0 + countCh '\n' o1) =
        some ([] ++ [], .CheckingHeader src hdrs, [] ++ []) :=
      runLines_cons_of hsrcStep rfl
    have hfull := runLines_append_of hrw htail
    have hbuild := formatText_build o s hfo (o1 ++ ([] ++ []))
      (.CheckingHeader src hdrs) (w3 ++ ([] ++ [])) (src ++ ['\n'])
      (by rw [hlo]; exact hfull) rfl
    rw [hbuild, ho]
    simp
  | ReadingTable src t =>
    obtain ⟨hsrcok, hwft, hself⟩ := hgF
    have hwo : t.write_output = some (joinNl (renderLines t)) :=
      write_output_eq t hwft
    have hF : F = joinNl (renderLines t) := by
      rw [show flushOf (.ReadingTable src t) = t.write_output from rfl,
        hwo] at hfl
      exact (Option.some.inj hfl).symm
    subst hF
    have hls2ok : ∀ l ∈ ls ++ renderLines t, lineOk l := by
      intro x hx
      rcases List.mem_append.mp hx with h1 | h2
      · exact hlsok x h1
      · exact renderLines_lineOk t hwft x h2
    have ho2 : o = joinNl (ls ++ renderLines t) := by
      rw [ho, hOls, joinNl_append]
    have hfo : hasFence o = false := by
      rw [ho2]; exact hasFence_joinNl _ (fun l hl => (hls2ok l hl).2.2)
    have hlo : linesOf o = ls ++ renderLines t := by
      rw [ho2]
      exact linesOf_joinNl _ (fun l hl =>
        ⟨(hls2ok l hl).1, (hls2ok l hl).2.1⟩)
    obtain ⟨w3, hrw⟩ := hrep s 0
    obtain ⟨src2, hpr⟩ := renderLines_reparse t hwft s (0 + countCh '\n' o1)
    have hfull := runLines_append_of hrw hpr
    have hbuild := formatText_build o s hfo (o1 ++ []) (.ReadingTable src2 t)
      (w3 ++ []) (joinNl (renderLines t)) (by rw [hlo]; exact hfull)
      (by rw [show flushOf (.ReadingTable src2 t) = t.write_output from rfl]
          exact hwo)
    rw [hbuild, ho]
    simp

/-- Closed witness for the amended C5 theorem on a concrete document. -/
theorem claim_c5_amended_witness :
    hasFence (str "|aa|b|\n|---|---|\n|c|dd|\n") = false ∧
    crFree (str "|aa|b|\n|---|---|\n|c|dd|\n") ∧
    formatText (str "|aa|b|\n|---|---|\n|c|dd|\n") false =
      some (str "| aa | b  |\n|----|----|\n| c  | dd |\n") ∧
    formatText (str "| aa | b  |\n|----|----|\n| c  | dd |\n") false =
      some (str "| aa | b  |\n|----|----|\n| c  | dd |\n") :=
  ⟨by decide, show '\r' ∉ str "|aa|b|\n|---|---|\n|c|dd|\n" by decide,
    by decide,
    claim_c5_amended (str "|aa|b|\n|---|---|\n|c|dd|\n") false
      (str "| aa | b  |\n|----|----|\n| c  | dd |\n")
      (by decide)
      (show '\r' ∉ str "|aa|b|\n|---|---|\n|c|dd|\n" by decide)
      (by decide)⟩
